import Mathlib

/-!
Verification of the roe-golang SDK core: a shallow embedding of the job/batch
polling state machine, the typed HTTP error taxonomy, the retrying transport
loop, and the chunking helpers, together with theorems checking the
specification's claims against the embedded code.

Conventions of the embedding:
* Go machine integers are modelled with `Int`/`Nat` (no overflow is relevant
  to any of the embedded functions).
* Decoded JSON values (`any` after `json.Unmarshal` in Go) are modelled by the
  inductive `Jv`; JSON numbers are carried as their literal text because no
  embedded function inspects them arithmetically.
* Go maps used for lookup/insert are modelled by association lists with
  overwrite-on-insert (`mapInsert` / `mapLookup`).
* Network I/O is modelled by oracles: functions from the round (and chunk)
  index to the raw response, with `none` standing for a failed HTTP call.
  Context cancellation is an oracle predicate on the round index.
* Fallible Go functions returning `(T, error)` are modelled with
  `Except`/`Option`.
-/

namespace Roe

/-- Decoded JSON values, the model of Go's `any` after `json.Unmarshal`.
Numbers are kept as their literal text (they are never used arithmetically
by the embedded code). -/
inductive Jv where
  | null : Jv
  | bool (b : Bool) : Jv
  | num (lit : String) : Jv
  | str (s : String) : Jv
  | arr (elems : List Jv) : Jv
  | obj (fields : List (String × Jv)) : Jv

/-- Field lookup in a decoded JSON object. `encoding/json` lets a later
duplicate key overwrite an earlier one, so the last binding wins. -/
def objGet (fields : List (String × Jv)) (k : String) : Option Jv :=
  ((fields.filter (fun p => p.1 == k)).getLast?).map (fun p => p.2)

/-- `JobStatus` enumeration from types.go. -/
inductive JobStatus where
  | pending | started | retry | success | failure | cancelled | cached
deriving DecidableEq

/-- `JobStatus.String` from types.go. -/
def JobStatus.text : JobStatus → String
  | .pending => "pending"
  | .started => "started"
  | .retry => "retry"
  | .success => "success"
  | .failure => "failure"
  | .cancelled => "cancelled"
  | .cached => "cached"

/-- `JobStatus.IsTerminal` from types.go. -/
def JobStatus.isTerminal (s : JobStatus) : Bool :=
  s == .success || s == .failure || s == .cancelled || s == .cached

/-- `AgentDatum` from types.go.  `Cost *float64` is carried as the number's
literal text (it is never used arithmetically by the embedded code). -/
structure AgentDatum where
  key : String
  description : String
  dataType : String
  value : String
  cost : Option String
deriving DecidableEq

/-- The zero value of `AgentDatum`. -/
def AgentDatum.zero : AgentDatum :=
  { key := "", description := "", dataType := "", value := "", cost := none }

/-- Decoding one JSON value into a string struct field, per `encoding/json`:
an absent field or a JSON null leaves the zero value, a JSON string is taken,
anything else is a decode error. -/
def decodeStrField : Option Jv → Option String
  | none => some ""
  | some .null => some ""
  | some (.str s) => some s
  | some _ => none

/-- Decoding one JSON value into the `Cost *float64` field, per
`encoding/json`: absent or null leaves nil, a number fills the pointer,
anything else is a decode error. -/
def decodeCostField : Option Jv → Option (Option String)
  | none => some none
  | some .null => some none
  | some (.num lit) => some (some lit)
  | some _ => none

/-- `json.Unmarshal` of a decoded JSON value into an `AgentDatum`
(types.go tags: key, description, data_type, value, cost).  JSON null decodes
to the zero value; a non-object is a decode error.  Keys are matched exactly
(the embedded inputs never rely on Go's case-insensitive fallback). -/
def decodeAgentDatum : Jv → Option AgentDatum
  | .null => some AgentDatum.zero
  | .obj fs => do
    let key ← decodeStrField (objGet fs "key")
    let description ← decodeStrField (objGet fs "description")
    let dataType ← decodeStrField (objGet fs "data_type")
    let value ← decodeStrField (objGet fs "value")
    let cost ← decodeCostField (objGet fs "cost")
    pure { key := key, description := description, dataType := dataType,
           value := value, cost := cost }
  | _ => none

/-- `json.Unmarshal` of a decoded JSON value into `[]AgentDatum`:
null leaves the nil slice, an array decodes element-wise, anything else is a
decode error. -/
def decodeDatumList : Jv → Option (List AgentDatum)
  | .null => some []
  | .arr xs => xs.mapM decodeAgentDatum
  | _ => none

/-- `AgentJobResult` from types.go. -/
structure AgentJobResult where
  agentID : String
  agentVersionID : String
  inputs : List Jv
  inputTokens : Option Int
  outputTokens : Option Int
  outputs : List AgentDatum

/-- The zero value `AgentJobResult{}`. -/
def AgentJobResult.zero : AgentJobResult :=
  { agentID := "", agentVersionID := "", inputs := [], inputTokens := none,
    outputTokens := none, outputs := [] }

/-- `AgentJobResultBatch` from types.go; `Result any` is the decoded JSON
value. -/
structure AgentJobResultBatch where
  id : String
  status : Option JobStatus
  result : Jv
  corrected : List AgentDatum
  agentID : Option String
  agentVersionID : Option String
  cost : Option String
  inputs : List Jv
  inputTokens : Option Int
  outputTokens : Option Int

/-- Errors produced by `convertBatchResult` (job.go), keeping the data the Go
`fmt.Errorf` messages carry. -/
inductive ConvErr where
  | notFound (jobId : String)
  | elemDecode (jobId : String) (index : Nat)
  | wholeDecode (jobId : String)
deriving DecidableEq

/-- The Go error messages of `convertBatchResult` (job.go). -/
def ConvErr.message : ConvErr → String
  | .notFound id => "job " ++ id ++ " not found or deleted"
  | .elemDecode id i =>
      "job " ++ id ++ ": unmarshal output[" ++ toString i ++ "]"
  | .wholeDecode id => "job " ++ id ++ ": unmarshal result as []AgentDatum"

/-- The element-wise decode loop of `convertBatchResult` over a `[]any`
result, tracking the element index for error messages. -/
def decodeElems (jobId : String) : Nat → List Jv → Except ConvErr (List AgentDatum)
  | _, [] => .ok []
  | i, x :: xs =>
    match decodeAgentDatum x with
    | none => .error (.elemDecode jobId i)
    | some d =>
      match decodeElems jobId (i + 1) xs with
      | .error e => .error e
      | .ok ds => .ok (d :: ds)

/-- The corrected-outputs fallback at the end of `convertBatchResult`:
if no outputs were decoded but corrected outputs exist, use those. -/
def applyCorrected (outputs corrected : List AgentDatum) : List AgentDatum :=
  if outputs.isEmpty && !corrected.isEmpty then corrected else outputs

/-- `convertBatchResult` from job.go: fails when the agent id or the
agent-version id pointer is nil; otherwise decodes the `result` field
(array element-wise, null to empty, anything else as a whole `[]AgentDatum`),
then applies the corrected-outputs fallback. -/
def convertBatchResult (res : AgentJobResultBatch) : Except ConvErr AgentJobResult :=
  match res.agentID, res.agentVersionID with
  | some aid, some avid =>
    let withOutputs : List AgentDatum → AgentJobResult := fun outs =>
      { agentID := aid, agentVersionID := avid, inputs := res.inputs,
        inputTokens := res.inputTokens, outputTokens := res.outputTokens,
        outputs := applyCorrected outs res.corrected }
    match res.result with
    | .arr data =>
      match decodeElems res.id 0 data with
      | .error e => .error e
      | .ok outs => .ok (withOutputs outs)
    | .null => .ok (withOutputs [])
    | other =>
      match decodeDatumList other with
      | none => .error (.wholeDecode res.id)
      | some outs => .ok (withOutputs outs)
  | _, _ => .error (.notFound res.id)

/-- A batch-result entry carrying an agent id but no agent-version id, with a
null result payload. -/
def oneIdEntry : AgentJobResultBatch :=
  { id := "job-x", status := none, result := .null, corrected := [],
    agentID := some "agent-1", agentVersionID := none, cost := none,
    inputs := [], inputTokens := none, outputTokens := none }

/-- C2 counterexample: an entry carrying an agent id but lacking the
agent-version id does NOT proceed to result conversion; `convertBatchResult`
still fails with the "not found or deleted" error for that job id, contrary
to the claim that an entry with at least one of the two ids proceeds. -/
theorem convertBatchResult_one_id_still_fails :
    convertBatchResult oneIdEntry = .error (.notFound "job-x") := rfl

/-- The element-wise decode loop never produces a "not found" error: its
errors always carry an element index. -/
lemma decodeElems_ne_notFound (jobId : String) (i : Nat) (xs : List Jv)
    (j : String) : decodeElems jobId i xs ≠ .error (.notFound j) := by
  induction xs generalizing i with
  | nil => simp [decodeElems]
  | cons x xs ih =>
    simp only [decodeElems]
    cases decodeAgentDatum x with
    | none => simp
    | some d =>
      simp only
      cases h : decodeElems jobId (i + 1) xs with
      | error e =>
        simp only [ne_eq, Except.error.injEq]
        intro he
        exact ih (i + 1) (by rw [h, he])
      | ok ds => simp

/-- C2 (amended): `convertBatchResult` returns the "not found or deleted"
data error naming the entry's job id precisely when the entry lacks the agent
id OR lacks the agent-version id; an entry carrying BOTH proceeds to result
conversion rather than failing with that error.  The error's rendered message
names the job id as "not found or deleted". -/
theorem convertBatchResult_notFound_iff (res : AgentJobResultBatch) :
    (convertBatchResult res = .error (.notFound res.id) ↔
      (res.agentID = none ∨ res.agentVersionID = none)) ∧
    (ConvErr.notFound res.id).message = "job " ++ res.id ++ " not found or deleted" := by
  refine ⟨?_, rfl⟩
  obtain ⟨id, status, result, corrected, agentID, agentVersionID,
    cost, inputs, inTok, outTok⟩ := res
  cases agentID with
  | none => simp [convertBatchResult]
  | some aid =>
    cases agentVersionID with
    | none => simp [convertBatchResult]
    | some avid =>
      simp only [Option.some_ne_none, or_self, iff_false]
      cases result with
      | arr data =>
        simp only [convertBatchResult]
        cases h : decodeElems id 0 data with
        | error e =>
          simpa using fun he => decodeElems_ne_notFound id 0 data id (by rw [h, he])
        | ok outs => simp
      | null => simp [convertBatchResult]
      | bool b => cases h : decodeDatumList (.bool b) <;> simp [convertBatchResult, h]
      | num lit => cases h : decodeDatumList (.num lit) <;> simp [convertBatchResult, h]
      | str s => cases h : decodeDatumList (.str s) <;> simp [convertBatchResult, h]
      | obj fs => cases h : decodeDatumList (.obj fs) <;> simp [convertBatchResult, h]

/-! ## Error taxonomy (errors.go) -/

/-- Arguments to Go's `fmt.Sprintf` for the verbs the embedded code uses. -/
inductive FmtArg where
  | d (n : Int)
  | s (v : String)

/-- A model of `fmt.Sprintf` restricted to the `%d` and `%s` verbs, which are
the only verbs the embedded format strings use. -/
def goSprintfAux : List Char → List FmtArg → List Char
  | [], _ => []
  | '%' :: 'd' :: rest, .d n :: args => (toString n).toList ++ goSprintfAux rest args
  | '%' :: 's' :: rest, .s v :: args => v.toList ++ goSprintfAux rest args
  | c :: rest, args => c :: goSprintfAux rest args

/-- `fmt.Sprintf` for the verbs used by errors.go. -/
def goSprintf (fmt : String) (args : List FmtArg) : String :=
  ⟨goSprintfAux fmt.toList args⟩

/-- `APIError` from errors.go.  The body bytes are carried as a string. -/
structure APIError where
  statusCode : Int
  message : String
  body : String
  requestID : String
  details : List (String × Jv)

/-- `(*APIError).Error` from errors.go, including the nil-receiver case
(`none` models a nil `*APIError`). -/
def APIError.errorString : Option APIError → String
  | none => ""
  | some e =>
    if e.requestID != "" then
      goSprintf "roe api error (%d): %s (request_id=%s)"
        [.d e.statusCode, .s e.message, .s e.requestID]
    else
      goSprintf "roe api error (%d): %s" [.d e.statusCode, .s e.message]

/-- Durations are modelled as Go's `time.Duration`: a count of nanoseconds. -/
def Duration := Int
deriving instance DecidableEq for Duration

/-- `time.Second` in nanoseconds. -/
def secondNs : Int := 1000000000

/-- The typed error family of errors.go: one wrapper struct per status class,
plus the rate-limit variant carrying the optional parsed `Retry-After`. -/
inductive RoeError where
  | badRequest (base : APIError)
  | authentication (base : APIError)
  | insufficientCredits (base : APIError)
  | forbidden (base : APIError)
  | notFound (base : APIError)
  | rateLimit (base : APIError) (retryAfter : Option Int)
  | server (base : APIError)
  | generic (base : APIError)

/-- The variant of a typed error, for stating the status-to-variant map. -/
inductive ErrKind where
  | badRequest | authentication | insufficientCredits | forbidden
  | notFound | rateLimit | server | generic
deriving DecidableEq

/-- Classifies a typed error by its variant. -/
def RoeError.kind : RoeError → ErrKind
  | .badRequest _ => .badRequest
  | .authentication _ => .authentication
  | .insufficientCredits _ => .insufficientCredits
  | .forbidden _ => .forbidden
  | .notFound _ => .notFound
  | .rateLimit _ _ => .rateLimit
  | .server _ => .server
  | .generic _ => .generic

/-- ASCII lower-casing of one character (header names are ASCII). -/
def asciiLowerChar (c : Char) : Char :=
  if 'A' ≤ c ∧ c ≤ 'Z' then Char.ofNat (c.toNat + 32) else c

/-- ASCII lower-casing of a string. -/
def asciiLower (s : String) : String :=
  ⟨s.data.map asciiLowerChar⟩

/-- HTTP headers: a list of name/value pairs.  `http.Header.Get` canonicalises
the key, which we model by case-insensitive name comparison, returning the
first value (Go returns the first element of the canonical key's value
slice). -/
def headerGet (hs : List (String × String)) (k : String) : String :=
  match hs.find? (fun p => asciiLower p.1 == asciiLower k) with
  | some p => p.2
  | none => ""

/-- `strconv.Atoi`: an optional single sign followed by at least one ASCII
digit, all digits, fitting in a signed 64-bit integer. -/
def goAtoi (s : String) : Option Int :=
  let core : Bool × List Char :=
    match s.toList with
    | '+' :: rest => (false, rest)
    | '-' :: rest => (true, rest)
    | cs => (false, cs)
  match core with
  | (neg, ds) =>
    if ds.isEmpty then none
    else if ds.all Char.isDigit then
      let n : Nat := ds.foldl (fun acc c => acc * 10 + (c.toNat - 48)) 0
      if neg then
        if n ≤ 2 ^ 63 then some (-(n : Int)) else none
      else
        if n ≤ 2 ^ 63 - 1 then some (n : Int) else none
    else none

/-- `parseRetryAfter` from errors.go.  `none` headers model a nil
`http.Header`.  `http.ParseTime` and the current instant are abstracted by
the `parseHTTPDate` and `now` parameters; `time.Until t` is `t - now`, both
instants in nanoseconds. -/
def parseRetryAfter (now : Int) (parseHTTPDate : String → Option Int)
    (headers : Option (List (String × String))) : Option Int :=
  match headers with
  | none => none
  | some hs =>
    let val := headerGet hs "Retry-After"
    if val == "" then none
    else
      match goAtoi val with
      | some seconds => some (seconds * secondNs)
      | none =>
        match parseHTTPDate val with
        | some t => some (t - now)
        | none => none

/-- `findDetailString` from errors.go: the first of the keys detail, message,
error holding a non-empty JSON string. -/
def findDetailGo (parsed : List (String × Jv)) : List String → String
  | [] => ""
  | k :: ks =>
    match objGet parsed k with
    | some (.str s) => if s != "" then s else findDetailGo parsed ks
    | _ => findDetailGo parsed ks

/-- `findDetailString` from errors.go. -/
def findDetailString (parsed : List (String × Jv)) : String :=
  findDetailGo parsed ["detail", "message", "error"]

/-- `extractErrorDetail` from errors.go.  `jsonParse` abstracts
`json.Unmarshal` of the body bytes; unmarshalling into `map[string]any`
succeeds exactly on a JSON object (or null, yielding a nil map). -/
def extractErrorDetail (jsonParse : String → Option Jv) (status : Int)
    (body : String) : String × List (String × Jv) :=
  if body == "" then ("HTTP " ++ toString status, [])
  else
    let raw := body.trim
    let details : List (String × Jv) :=
      match jsonParse body with
      | some (.obj fs) => fs
      | _ => []
    let msg : String :=
      match jsonParse body with
      | some (.obj fs) => findDetailString fs
      | _ => ""
    if msg != "" then (msg, details)
    else if raw != "" then (raw, details)
    else ("HTTP " ++ toString status, details)

/-- `apiErrorFromResponse` from errors.go: maps a status code, body and
headers to exactly one typed error value. -/
def apiErrorFromResponse (jsonParse : String → Option Jv) (now : Int)
    (parseHTTPDate : String → Option Int) (status : Int) (body : String)
    (headers : Option (List (String × String))) (requestIDHeader : String) :
    RoeError :=
  let md := extractErrorDetail jsonParse status body
  let requestID : String :=
    match headers with
    | some hs => if requestIDHeader != "" then headerGet hs requestIDHeader else ""
    | none => ""
  let base : APIError :=
    { statusCode := status, message := md.1, body := body,
      requestID := requestID, details := md.2 }
  if status = 400 then .badRequest base
  else if status = 401 then .authentication base
  else if status = 402 then .insufficientCredits base
  else if status = 403 then .forbidden base
  else if status = 404 then .notFound base
  else if status = 429 then .rateLimit base (parseRetryAfter now parseHTTPDate headers)
  else if status ≥ 500 then .server base
  else .generic base

/-- C4: the status code alone determines the variant of the single error
value `apiErrorFromResponse` returns: 400 BadRequest, 401 Authentication,
402 InsufficientCredits, 403 Forbidden, 404 NotFound, 429 RateLimit, any
status >= 500 ServerError, and every other status the generic APIError. -/
theorem apiErrorFromResponse_kind (jsonParse : String → Option Jv) (now : Int)
    (parseHTTPDate : String → Option Int) (status : Int) (body : String)
    (headers : Option (List (String × String))) (requestIDHeader : String) :
    (apiErrorFromResponse jsonParse now parseHTTPDate status body headers
        requestIDHeader).kind =
      if status = 400 then .badRequest
      else if status = 401 then .authentication
      else if status = 402 then .insufficientCredits
      else if status = 403 then .forbidden
      else if status = 404 then .notFound
      else if status = 429 then .rateLimit
      else if 500 ≤ status then .server
      else .generic := by
  unfold apiErrorFromResponse
  by_cases h1 : status = 400
  · simp only [h1, if_pos rfl]; rfl
  · rw [if_neg h1, if_neg h1]
    by_cases h2 : status = 401
    · rw [if_pos h2, if_pos h2]; rfl
    · rw [if_neg h2, if_neg h2]
      by_cases h3 : status = 402
      · rw [if_pos h3, if_pos h3]; rfl
      · rw [if_neg h3, if_neg h3]
        by_cases h4 : status = 403
        · rw [if_pos h4, if_pos h4]; rfl
        · rw [if_neg h4, if_neg h4]
          by_cases h5 : status = 404
          · rw [if_pos h5, if_pos h5]; rfl
          · rw [if_neg h5, if_neg h5]
            by_cases h6 : status = 429
            · rw [if_pos h6, if_pos h6]; rfl
            · rw [if_neg h6, if_neg h6]
              by_cases h7 : 500 ≤ status
              · rw [if_pos (by exact_mod_cast h7), if_pos h7]; rfl
              · rw [if_neg (by exact_mod_cast h7), if_neg h7]; rfl

/-- A concrete server error with no request id, used to exercise rendering. -/
def plainServerError : APIError :=
  { statusCode := 500, message := "boom", body := "", requestID := "",
    details := [] }

/-- C5 counterexample: rendering does not produce
"api error ({status}): {message}" — the implementation prefixes the library
name, producing "roe api error (500): boom" here instead of
"api error (500): boom". -/
theorem errorString_not_unprefixed :
    APIError.errorString (some plainServerError) ≠ "api error (500): boom" ∧
    APIError.errorString (some plainServerError) = "roe api error (500): boom" := by
  constructor
  · decide
  · rfl

/-- C5 (amended): rendering an `APIError` produces
"roe api error ({status}): {message} (request_id={id})" when a request id is
present and "roe api error ({status}): {message}" otherwise, and rendering a
nil error yields the empty string. -/
theorem errorString_format (e : APIError) :
    APIError.errorString none = "" ∧
    (e.requestID ≠ "" →
      APIError.errorString (some e) =
        "roe api error (" ++ toString e.statusCode ++ "): " ++ e.message ++
          " (request_id=" ++ e.requestID ++ ")") ∧
    (e.requestID = "" →
      APIError.errorString (some e) =
        "roe api error (" ++ toString e.statusCode ++ "): " ++ e.message) := by
  refine ⟨rfl, ?_, ?_⟩
  · intro h
    have hb : (e.requestID != "") = true := by
      simpa using h
    simp only [APIError.errorString, hb, if_pos]
    show goSprintf _ _ = _
    simp only [goSprintf, goSprintfAux, String.toList]
    apply String.ext
    simp [String.data_append, List.append_assoc]
  · intro h
    have hb : (e.requestID != "") = false := by
      simpa using h
    simp only [APIError.errorString, hb, Bool.false_eq_true, if_false]
    simp only [goSprintf, goSprintfAux, String.toList]
    apply String.ext
    simp [String.data_append, List.append_assoc]

/-- C5 witness: the amended rendering theorem applied to a concrete error
with a request id present, and to one with it absent. -/
theorem errorString_format_witness :
    APIError.errorString
        (some { statusCode := 402, message := "pay", body := "",
                requestID := "r1", details := [] }) =
      "roe api error (" ++ toString (402 : Int) ++ "): " ++ "pay" ++
        " (request_id=" ++ "r1" ++ ")" :=
  (errorString_format
    { statusCode := 402, message := "pay", body := "", requestID := "r1",
      details := [] }).2.1 (by decide)

/-- The `Retry-After` payload of a rate-limit error, if the error is the
rate-limit variant. -/
def RoeError.rateLimitRetryAfter : RoeError → Option (Option Int)
  | .rateLimit _ ra => some ra
  | _ => none

/-- C6: `parseRetryAfter` tries integer seconds first, then an HTTP-date
(remaining duration until that date), and leaves the retry-after unset (nil)
when both fail or the header is absent or empty; a 429 response with
"Retry-After: 30" yields a RateLimit error carrying exactly 30 seconds. -/
theorem parseRetryAfter_spec (now : Int) (parseHTTPDate : String → Option Int)
    (hs : List (String × String)) :
    parseRetryAfter now parseHTTPDate none = none ∧
    (headerGet hs "Retry-After" = "" →
      parseRetryAfter now parseHTTPDate (some hs) = none) ∧
    (∀ n, goAtoi (headerGet hs "Retry-After") = some n →
      headerGet hs "Retry-After" ≠ "" →
      parseRetryAfter now parseHTTPDate (some hs) = some (n * secondNs)) ∧
    (∀ t, goAtoi (headerGet hs "Retry-After") = none →
      parseHTTPDate (headerGet hs "Retry-After") = some t →
      headerGet hs "Retry-After" ≠ "" →
      parseRetryAfter now parseHTTPDate (some hs) = some (t - now)) ∧
    (goAtoi (headerGet hs "Retry-After") = none →
      parseHTTPDate (headerGet hs "Retry-After") = none →
      parseRetryAfter now parseHTTPDate (some hs) = none) ∧
    (∀ jsonParse body requestIDHeader,
      (apiErrorFromResponse jsonParse now parseHTTPDate 429 body
          (some [("Retry-After", "30")]) requestIDHeader).rateLimitRetryAfter =
        some (some (30 * secondNs))) := by
  refine ⟨rfl, ?_, ?_, ?_, ?_, ?_⟩
  · intro h
    simp [parseRetryAfter, h]
  · intro n hn hne
    have hb : (headerGet hs "Retry-After" == "") = false := by
      simpa using hne
    simp [parseRetryAfter, hb, hn]
  · intro t ha hd hne
    have hb : (headerGet hs "Retry-After" == "") = false := by
      simpa using hne
    simp [parseRetryAfter, hb, ha, hd]
  · intro ha hd
    by_cases hne : headerGet hs "Retry-After" = ""
    · simp [parseRetryAfter, hne]
    · have hb : (headerGet hs "Retry-After" == "") = false := by
        simpa using hne
      simp [parseRetryAfter, hb, ha, hd]
  · intro jsonParse body requestIDHeader
    have h30 : headerGet [("Retry-After", "30")] "Retry-After" = "30" := rfl
    simp only [apiErrorFromResponse]
    norm_num
    simp only [parseRetryAfter, h30]
    rfl

/-- C6 witness: the theorem applied at a concrete header set carrying
"Retry-After: 30" with a trivial date parser, discharging the
integer-seconds branch. -/
theorem parseRetryAfter_spec_witness :
    parseRetryAfter 0 (fun _ => none) (some [("Retry-After", "30")]) =
      some (30 * secondNs) :=
  (parseRetryAfter_spec 0 (fun _ => none) [("Retry-After", "30")]).2.2.1 30
    (by decide) (by decide)

/-! ## Resilient transport (httpClient.doRequest) -/

/-- What `http.Client.Do` produced for one attempt: a transport-level error
(possibly a context cancellation/deadline error) or a response. -/
inductive HttpEvent where
  | netErr (isCtxErr : Bool)
  | resp (status : Int) (body : String) (headers : List (String × String))

/-- The observable outcome of `doRequest`.  `ctxDone` covers the loop-top
context check and the cancellable retry sleep (both return the context's
error); `exhausted` is the fall-through return of the last error after the
loop, unreachable for a non-negative retry budget. -/
inductive DoResult where
  | ok (body : String)
  | ctxDone
  | netFailure (isCtxErr : Bool)
  | apiFailure (e : RoeError)
  | exhausted

/-- `httpClient.shouldRetry`: no retry once the attempt index reaches the
configured max-retries; transport errors retry unless they are context
errors; responses retry exactly for status >= 500, 408 and 429. -/
def shouldRetry (maxRetries : Nat) (attempt : Nat) (respStatus : Option Int)
    (errCtx : Option Bool) : Bool :=
  if attempt ≥ maxRetries then false
  else
    match errCtx with
    | some isCtx => !isCtx
    | none =>
      match respStatus with
      | none => false
      | some s =>
        if s ≥ 500 then true
        else if s == 408 || s == 429 then true
        else false

/-- The attempt loop of `httpClient.doRequest`: runs `maxRetries + 1`
attempts; a 2xx response returns its body, a retryable failure loops, any
other failure returns immediately.  The second component counts the attempts
actually performed (calls to `http.Client.Do`).  Backoff durations only
affect timing and are not modelled; a cancellation during the retry sleep is
observationally the next round's loop-top context check and is covered by the
`cancelled` oracle. -/
def doRequestLoop (jsonParse : String → Option Jv) (now : Int)
    (parseHTTPDate : String → Option Int) (maxRetries : Nat)
    (requestIDHeader : String) (events : Nat → HttpEvent)
    (cancelled : Nat → Bool) : Nat → Nat → Nat → DoResult × Nat
  | 0, _, used => (.exhausted, used)
  | remaining + 1, attempt, used =>
    if cancelled attempt then (.ctxDone, used)
    else
      match events attempt with
      | .netErr isCtx =>
        if shouldRetry maxRetries attempt none (some isCtx) then
          doRequestLoop jsonParse now parseHTTPDate maxRetries requestIDHeader
            events cancelled remaining (attempt + 1) (used + 1)
        else (.netFailure isCtx, used + 1)
      | .resp status body headers =>
        if 200 ≤ status ∧ status < 300 then (.ok body, used + 1)
        else
          if shouldRetry maxRetries attempt (some status) none then
            doRequestLoop jsonParse now parseHTTPDate maxRetries requestIDHeader
              events cancelled remaining (attempt + 1) (used + 1)
          else
            (.apiFailure (apiErrorFromResponse jsonParse now parseHTTPDate
              status body (some headers) requestIDHeader), used + 1)

/-- `httpClient.doRequest`: attempt budget is max-retries + 1. -/
def doRequestGo (jsonParse : String → Option Jv) (now : Int)
    (parseHTTPDate : String → Option Int) (maxRetries : Nat)
    (requestIDHeader : String) (events : Nat → HttpEvent)
    (cancelled : Nat → Bool) : DoResult × Nat :=
  doRequestLoop jsonParse now parseHTTPDate maxRetries requestIDHeader events
    cancelled (maxRetries + 1) 0 0

/-- The attempt counter grows by at most the remaining budget. -/
lemma doRequestLoop_used_le (jsonParse : String → Option Jv) (now : Int)
    (parseHTTPDate : String → Option Int) (maxRetries : Nat)
    (requestIDHeader : String) (events : Nat → HttpEvent)
    (cancelled : Nat → Bool) :
    ∀ remaining attempt used,
      (doRequestLoop jsonParse now parseHTTPDate maxRetries requestIDHeader
          events cancelled remaining attempt used).2 ≤ used + remaining := by
  intro remaining
  induction remaining with
  | zero => intro attempt used; simp [doRequestLoop]
  | succ r ih =>
    intro attempt used
    simp only [doRequestLoop]
    by_cases hc : cancelled attempt
    · rw [if_pos hc]
      omega
    · rw [if_neg hc]
      cases events attempt with
      | netErr isCtx =>
        dsimp only
        by_cases hr : shouldRetry maxRetries attempt none (some isCtx)
        · rw [if_pos hr]
          have := ih (attempt + 1) (used + 1)
          omega
        · rw [if_neg hr]
          omega
      | resp status body headers =>
        dsimp only
        by_cases h2 : 200 ≤ status ∧ status < 300
        · rw [if_pos h2]
          omega
        · rw [if_neg h2]
          by_cases hr : shouldRetry maxRetries attempt (some status) none
          · rw [if_pos hr]
            have := ih (attempt + 1) (used + 1)
            omega
          · rw [if_neg hr]
            omega

/-- C3: `doRequest` makes at most max-retries + 1 attempts; a non-2xx
response is retried exactly when its status is >= 500 or equals 408 or 429
and the attempt budget is not exhausted; any other non-2xx status returns the
typed API error immediately; and with max-retries = 2 and two 500s followed
by a 200, the 200 body is returned after exactly 3 attempts. -/
theorem doRequest_retry_spec (jsonParse : String → Option Jv) (now : Int)
    (parseHTTPDate : String → Option Int) (maxRetries : Nat)
    (requestIDHeader : String) (events : Nat → HttpEvent)
    (cancelled : Nat → Bool) :
    ((doRequestGo jsonParse now parseHTTPDate maxRetries requestIDHeader
        events cancelled).2 ≤ maxRetries + 1) ∧
    (∀ attempt s, shouldRetry maxRetries attempt (some s) none = true ↔
      ((500 ≤ s ∨ s = 408 ∨ s = 429) ∧ attempt < maxRetries)) ∧
    (∀ remaining attempt used s body headers,
      cancelled attempt = false →
      events attempt = .resp s body headers →
      ¬(200 ≤ s ∧ s < 300) →
      ¬(500 ≤ s ∨ s = 408 ∨ s = 429) →
      doRequestLoop jsonParse now parseHTTPDate maxRetries requestIDHeader
          events cancelled (remaining + 1) attempt used =
        (.apiFailure (apiErrorFromResponse jsonParse now parseHTTPDate s body
          (some headers) requestIDHeader), used + 1)) ∧
    (doRequestGo jsonParse now parseHTTPDate 2 requestIDHeader
        (fun a => if a < 2 then .resp 500 "" [] else .resp 200 "okbody" [])
        (fun _ => false) =
      (.ok "okbody", 3)) := by
  refine ⟨?_, ?_, ?_, ?_⟩
  · simpa using doRequestLoop_used_le jsonParse now parseHTTPDate maxRetries
      requestIDHeader events cancelled (maxRetries + 1) 0 0
  · intro attempt s
    simp only [shouldRetry]
    by_cases hb : attempt ≥ maxRetries
    · rw [if_pos hb]
      constructor
      · intro h; exact absurd h (by simp)
      · rintro ⟨_, hlt⟩; omega
    · rw [if_neg hb]
      by_cases h5 : s ≥ 500
      · rw [if_pos h5]
        constructor
        · intro _; exact ⟨Or.inl h5, by omega⟩
        · intro _; rfl
      · rw [if_neg h5]
        by_cases h48 : s = 408 ∨ s = 429
        · have hbe : (s == 408 || s == 429) = true := by
            rcases h48 with h | h <;> simp [h]
          rw [hbe, if_pos rfl]
          constructor
          · intro _; exact ⟨Or.inr h48, by omega⟩
          · intro _; rfl
        · have hbe : (s == 408 || s == 429) = false := by
            push_neg at h48
            simp [h48.1, h48.2]
          rw [hbe, if_neg (by simp)]
          constructor
          · intro h; exact absurd h (by simp)
          · rintro ⟨h, _⟩
            rcases h with h | h
            · exact absurd h h5
            · exact absurd h h48
  · intro remaining attempt used s body headers hcanc hev h2xx hretry
    have hsr : shouldRetry maxRetries attempt (some s) none = false := by
      simp only [shouldRetry]
      by_cases hb : attempt ≥ maxRetries
      · simp [hb]
      · simp only [hb, if_false]
        have h5 : ¬ s ≥ 500 := fun h => hretry (Or.inl h)
        have h48 : (s == 408 || s == 429) = false := by
          have : ¬ (s = 408 ∨ s = 429) := fun h => hretry (Or.inr h)
          push_neg at this
          simp [this.1, this.2]
        simp [h5, h48]
    simp [doRequestLoop, hcanc, hev, h2xx, hsr]
  · rfl

/-- C3 witness: the retry-spec theorem applied at the concrete max-retries = 2
configuration, discharging the immediate-return hypotheses at a 404
response on the first attempt. -/
theorem doRequest_retry_spec_witness :
    doRequestLoop (fun _ => none) 0 (fun _ => none) 2 ""
        (fun _ => HttpEvent.resp 404 "missing" []) (fun _ => false) 3 0 0 =
      (.apiFailure (apiErrorFromResponse (fun _ => none) 0 (fun _ => none) 404
        "missing" (some []) ""), 1) :=
  (doRequest_retry_spec (fun _ => none) 0 (fun _ => none) 2 ""
      (fun _ => HttpEvent.resp 404 "missing" []) (fun _ => false)).2.2.1 2 0 0
    404 "missing" [] rfl rfl (by omega) (by omega)

/-! ## Chunking helpers (agents_api.go) -/

/-- `const maxBatchSize = 1000` from agents_api.go, at the `int` type the
chunking helpers consume it at. -/
def maxBatchSize : Int := 1000

/-- The slicing loop shared by `chunkStrings` and `chunkAny`
(`for i := 0; i < len(items); i += size`), entered only with a positive
size. -/
def chunkLoop (s : Nat) (hs : 0 < s) (l : List α) : List (List α) :=
  if l.length ≤ s then [l]
  else l.take s :: chunkLoop s hs (l.drop s)
termination_by l.length
decreasing_by
  simp only [List.length_drop]
  omega

/-- `chunkAny` from agents_api.go: a non-positive size or a size at least the
item count yields one chunk holding all items; otherwise slices of length
`size`. -/
def chunkAny (items : List α) (size : Int) : List (List α) :=
  if h : size ≤ 0 ∨ (items.length : Int) ≤ size then [items]
  else chunkLoop size.toNat (by omega) items

/-- `chunkStrings` from agents_api.go: textually the same loop as `chunkAny`
specialised to strings. -/
def chunkStrings (items : List String) (size : Int) : List (List String) :=
  if h : size ≤ 0 ∨ (items.length : Int) ≤ size then [items]
  else chunkLoop size.toNat (by omega) items

/-- The chunks concatenate back to the original list. -/
lemma chunkLoop_join (s : Nat) (hs : 0 < s) (l : List α) :
    (chunkLoop s hs l).flatten = l := by
  induction l using chunkLoop.induct s hs with
  | case1 l h =>
    rw [chunkLoop, if_pos h]
    simp
  | case2 l h ih =>
    rw [chunkLoop, if_neg h]
    simp [ih]

/-- Every chunk has at most `s` elements. -/
lemma chunkLoop_size (s : Nat) (hs : 0 < s) (l : List α) :
    ∀ c ∈ chunkLoop s hs l, c.length ≤ s := by
  induction l using chunkLoop.induct s hs with
  | case1 l h =>
    rw [chunkLoop, if_pos h]
    simpa using h
  | case2 l h ih =>
    rw [chunkLoop, if_neg h]
    intro c hc
    rcases List.mem_cons.mp hc with hc | hc
    · simp [hc]
    · exact ih c hc

/-- The number of chunks is the ceiling of `length / s`. -/
lemma chunkLoop_count (s : Nat) (hs : 0 < s) (l : List α) (hl : 0 < l.length) :
    (chunkLoop s hs l).length = (l.length + s - 1) / s := by
  induction l using chunkLoop.induct s hs with
  | case1 l h =>
    rw [chunkLoop, if_pos h]
    have h1 : (l.length + s - 1) / s = 1 := by
      have hle : s ≤ l.length + s - 1 := by omega
      have hlt : l.length + s - 1 < 2 * s := by omega
      have := Nat.div_eq_sub_div hs hle
      rw [this]
      have : (l.length + s - 1 - s) / s = 0 := Nat.div_eq_of_lt (by omega)
      omega
    simp [h1]
  | case2 l h ih =>
    rw [chunkLoop, if_neg h]
    have hd : 0 < (l.drop s).length := by
      simp only [List.length_drop]
      omega
    have := ih hd
    simp only [List.length_cons, this, List.length_drop]
    have hle : s ≤ l.length + s - 1 := by omega
    rw [Nat.div_eq_sub_div hs hle]
    congr 1
    congr 1
    omega

/-- C8: chunking N items with size S>0, S<N yields ceil(N/S) chunks, each of
size at most S, concatenating to the original list in order; S<=0 or S>=N
yields exactly one chunk holding all the items (one empty chunk for the empty
list); `chunkStrings` computes exactly what the generic `chunkAny` computes,
and the batch chunk constant is 1000. -/
theorem chunk_spec :
    (∀ (α : Type) (items : List α) (size : Int),
      size ≤ 0 ∨ (items.length : Int) ≤ size → chunkAny items size = [items]) ∧
    (∀ (α : Type) (items : List α) (size : Int),
      0 < size → size < (items.length : Int) →
      (chunkAny items size).length =
          (items.length + size.toNat - 1) / size.toNat ∧
        (∀ c ∈ chunkAny items size, c.length ≤ size.toNat) ∧
        (chunkAny items size).flatten = items) ∧
    (∀ (items : List String) (size : Int),
      chunkStrings items size = chunkAny items size) ∧
    maxBatchSize = 1000 := by
  refine ⟨?_, ?_, ?_, rfl⟩
  · intro α items size h
    rw [chunkAny, dif_pos h]
  · intro α items size h0 hn
    have hno : ¬(size ≤ 0 ∨ (items.length : Int) ≤ size) := by omega
    rw [chunkAny, dif_neg hno]
    have hpos : 0 < size.toNat := by omega
    refine ⟨?_, chunkLoop_size _ _ items, chunkLoop_join _ _ items⟩
    exact chunkLoop_count _ hpos items (by omega)
  · intro items size
    rw [chunkStrings, chunkAny]

/-- C8 witness: the chunking theorem applied at a concrete five-element list
with chunk size two, and at the empty list with size two, discharging the
bound hypotheses. -/
theorem chunk_spec_witness :
    chunkAny ([] : List Nat) 2 = [[]] ∧
    (chunkAny [10, 20, 30, 40, 50] (2 : Int)).length = (5 + 2 - 1) / 2 ∧
    (chunkAny [10, 20, 30, 40, 50] (2 : Int)).flatten = [10, 20, 30, 40, 50] :=
  ⟨chunk_spec.1 Nat [] 2 (by decide),
   (chunk_spec.2.1 Nat [10, 20, 30, 40, 50] 2 (by decide) (by decide)).1,
   (chunk_spec.2.1 Nat [10, 20, 30, 40, 50] 2 (by decide) (by decide)).2.2⟩

/-! ## Reference extraction (AgentJobResult.GetReferences, types.go) -/

/-- Whether the list starts with the given pattern. -/
def listStartsWith : List Char → List Char → Bool
  | _, [] => true
  | [], _ :: _ => false
  | a :: l, b :: p => a == b && listStartsWith l p

/-- Greedy left-to-right split on a non-empty separator, the semantics of
Go's `strings.Split`.  The fuel is the input length; each step consumes at
least one character. -/
def goSplitAux (sep : List Char) : Nat → List Char → List Char → List (List Char)
  | _, cur, [] => [cur.reverse]
  | 0, cur, l => [cur.reverse ++ l]
  | fuel + 1, cur, c :: rest =>
    if listStartsWith (c :: rest) sep then
      cur.reverse :: goSplitAux sep fuel [] ((c :: rest).drop sep.length)
    else goSplitAux sep fuel (c :: cur) rest

/-- `strings.Split` for a non-empty separator (the only way the embedded
code calls it). -/
def goSplit (s sep : String) : List String :=
  (goSplitAux sep.data s.data.length [] s.data).map (fun cs => ⟨cs⟩)

/-- `strings.Contains` for a non-empty separator, via the split it agrees
with in Go. -/
def goContains (s sub : String) : Bool :=
  (goSplit s sub).length > 1

/-- `strings.TrimSuffix(s, "/")`. -/
def goTrimSlash (s : String) : String :=
  match s.data.getLast? with
  | some '/' => ⟨s.data.dropLast⟩
  | _ => s

/-- `Reference` from types.go. -/
structure Reference where
  url : String
  resourceID : String
deriving DecidableEq

/-- The per-string step of the references loop: skip strings missing
"/references/", otherwise split on it, strip a trailing slash from the last
part, and emit the (url, resource-id) pair. -/
def refStrParse (s : String) : Option Reference :=
  if goContains s "/references/" then
    let parts := goSplit s "/references/"
    if parts.length > 1 then
      some { url := s, resourceID := goTrimSlash (parts.getLastD "") }
    else none
  else none

/-- The per-item step of the references loop: non-string items are
skipped. -/
def refOfItem : Jv → Option Reference
  | .str s => refStrParse s
  | _ => none

/-- `json.Unmarshal` of a decoded JSON value into `map[string]any`: an object
yields its fields, null yields the nil map, anything else is a decode
error. -/
def unmarshalStringMap : Jv → Option (List (String × Jv))
  | .obj fs => some fs
  | .null => some []
  | _ => none

/-- The references contributed by one output datum in
`AgentJobResult.GetReferences`: unmarshal the datum's value, look up the
"references" key, keep string items that contain "/references/".
`jsonParse` abstracts parsing the value's bytes into a decoded JSON value
(`none` for invalid JSON). -/
def datumRefs (jsonParse : String → Option Jv) (out : AgentDatum) : List Reference :=
  match jsonParse out.value with
  | none => []
  | some j =>
    match unmarshalStringMap j with
    | none => []
    | some parsed =>
      match objGet parsed "references" with
      | some (.arr items) => items.filterMap refOfItem
      | _ => []

/-- `AgentJobResult.GetReferences` from types.go: the per-datum contributions
in output order.  Total by construction: it can never return an error. -/
def getReferences (jsonParse : String → Option Jv) (r : AgentJobResult) : List Reference :=
  (r.outputs.map (datumRefs jsonParse)).flatten

/-- The claim's notion of "an array of strings", written from the spec's
words for comparison against the code's behaviour. -/
def claimStringArray : Jv → Bool
  | .arr items => items.all (fun i => match i with | .str _ => true | _ => false)
  | _ => false

/-- A references array mixing a valid reference string with a number. -/
def mixedRefsValue : String := "\x7b\"references\":[\"https://x/references/abc123/\",42]\x7d"

/-- The decoded JSON of `mixedRefsValue`. -/
def mixedRefsJv : Jv :=
  .obj [("references", .arr [.str "https://x/references/abc123/", .num "42"])]

/-- A parser defined on exactly the mixed-references document. -/
def parseMixed : String → Option Jv :=
  fun s => if s == mixedRefsValue then some mixedRefsJv else none

/-- C9 counterexample: a datum whose references entry is NOT an array of
strings (it mixes a string and a number) still contributes a reference:
the code skips non-string items individually instead of discarding the
whole entry, contrary to the claim. -/
theorem getReferences_mixed_array_contributes :
    claimStringArray (.arr [.str "https://x/references/abc123/", .num "42"]) = false ∧
    parseMixed mixedRefsValue = some mixedRefsJv ∧
    getReferences parseMixed
        { AgentJobResult.zero with
          outputs := [{ AgentDatum.zero with value := mixedRefsValue }] } =
      [{ url := "https://x/references/abc123/", resourceID := "abc123" }] := by
  exact ⟨rfl, rfl, rfl⟩

/-- C9 (amended): `GetReferences` is total (never an error); a datum whose
value is not valid JSON, does not decode to a JSON object, or lacks a
references key contributes no references; a references entry that is not an
array contributes no references; within a references array the items are
filtered individually, every non-string item is skipped, and a lone string
item containing "/references/" contributes the (url, resource-id) pair with
the id taken after the last "/references/" and a trailing slash stripped. -/
theorem getReferences_spec (jsonParse : String → Option Jv)
    (r : AgentJobResult) (out : AgentDatum) :
    (getReferences jsonParse r = (r.outputs.map (datumRefs jsonParse)).flatten) ∧
    (jsonParse out.value = none → datumRefs jsonParse out = []) ∧
    (∀ j, jsonParse out.value = some j → unmarshalStringMap j = none →
      datumRefs jsonParse out = []) ∧
    (∀ fs, jsonParse out.value = some (.obj fs) →
      objGet fs "references" = none → datumRefs jsonParse out = []) ∧
    (∀ fs j, jsonParse out.value = some (.obj fs) →
      objGet fs "references" = some j → (∀ items, j ≠ .arr items) →
      datumRefs jsonParse out = []) ∧
    (∀ fs items, jsonParse out.value = some (.obj fs) →
      objGet fs "references" = some (.arr items) →
      datumRefs jsonParse out = items.filterMap refOfItem) ∧
    (∀ item, (∀ s, item ≠ .str s) → refOfItem item = none) ∧
    (∀ u, goContains u "/references/" = true →
      refOfItem (.str u) =
        some { url := u,
               resourceID := goTrimSlash ((goSplit u "/references/").getLastD "") }) := by
  refine ⟨rfl, ?_, ?_, ?_, ?_, ?_, ?_, ?_⟩
  · intro h; simp [datumRefs, h]
  · intro j hj hm; simp [datumRefs, hj, hm]
  · intro fs hj hr
    simp [datumRefs, hj, unmarshalStringMap, hr]
  · intro fs j hj hr hne
    simp only [datumRefs, hj, unmarshalStringMap, hr]
    cases j with
    | arr items => exact absurd rfl (hne items)
    | null => rfl
    | bool b => rfl
    | num lit => rfl
    | str s => rfl
    | obj fs2 => rfl
  · intro fs items hj hr
    simp [datumRefs, hj, unmarshalStringMap, hr]
  · intro item hne
    cases item with
    | str s => exact absurd rfl (hne s)
    | null => rfl
    | bool b => rfl
    | num lit => rfl
    | arr xs => rfl
    | obj fs => rfl
  · intro u hc
    have hparts : (goSplit u "/references/").length > 1 := of_decide_eq_true hc
    simp only [refOfItem, refStrParse]
    rw [if_pos hc, if_pos hparts]

/-- C9 witness: the amended theorem applied at the spec's concrete example,
a single datum whose value decodes to
obj [("references", arr [str "https://x/references/abc123/"])]: exactly one
reference, trailing slash stripped. -/
theorem getReferences_spec_witness :
    datumRefs
        (fun s => if s == "\x7b\"references\":[\"https://x/references/abc123/\"]\x7d"
          then some (.obj [("references", .arr [.str "https://x/references/abc123/"])])
          else none)
        { AgentDatum.zero with
          value := "\x7b\"references\":[\"https://x/references/abc123/\"]\x7d" } =
      [{ url := "https://x/references/abc123/", resourceID := "abc123" }] := by
  have h := (getReferences_spec
      (fun s => if s == "\x7b\"references\":[\"https://x/references/abc123/\"]\x7d"
        then some (.obj [("references", .arr [.str "https://x/references/abc123/"])])
        else none)
      AgentJobResult.zero
      { AgentDatum.zero with
        value := "\x7b\"references\":[\"https://x/references/abc123/\"]\x7d" }).2.2.2.2.2.1
    [("references", .arr [.str "https://x/references/abc123/"])]
    [.str "https://x/references/abc123/"] rfl rfl
  rw [h]
  decide

/-! ## Single-job poller (Job.WaitContext, job.go) -/

/-- `AgentJobStatus` from types.go.  The float64 timestamp is carried at
integer precision; it is never inspected by the embedded code. -/
structure AgentJobStatusS where
  status : JobStatus
  timestamp : Int
  errorMessage : Option String

/-- The errors `Job.WaitContext` can return, with the data the Go messages
carry. -/
inductive JobWaitErr where
  | cancelledWait
  | statusFetch
  | resultFetch
  | ended (jobId : String) (st : JobStatus)

/-- The message of the terminal-failure error
(`fmt.Errorf("job %s ended with status %s", ...)`). -/
def JobWaitErr.message : JobWaitErr → String
  | .ended id st => goSprintf "job %s ended with status %s" [.s id, .s st.text]
  | _ => ""

/-- The observable return of `Job.WaitContext`: the result/error pair, or
fuel exhaustion of the model (the Go loop would still be polling). -/
inductive JobWaitOut where
  | ret (result : AgentJobResult) (err : Option JobWaitErr)
  | fuelOut

/-- The polling loop of `Job.WaitContext`: check cancellation, fetch the
status, on a terminal status fetch the result once and return it (with an
error naming the job id and ending status when the job failed or was
cancelled), otherwise sleep and poll again.  `statusO`/`resultO` give the
outcome of the status/result call at each round (`none` is a fetch error);
`cancelled` is the context state at the round's start (a cancellation during
the inter-poll sleep of round `n` is observationally the loop-top check of
round `n + 1`).  Poll interval and timeout defaults only affect timing and
are absorbed by the oracles. -/
def jobWaitLoop (jobId : String) (statusO : Nat → Option AgentJobStatusS)
    (resultO : Nat → Option AgentJobResult) (cancelled : Nat → Bool) :
    Nat → Nat → JobWaitOut
  | 0, _ => .fuelOut
  | fuel + 1, round =>
    if cancelled round then .ret AgentJobResult.zero (some .cancelledWait)
    else
      match statusO round with
      | none => .ret AgentJobResult.zero (some .statusFetch)
      | some st =>
        if st.status.isTerminal then
          match resultO round with
          | none => .ret AgentJobResult.zero (some .resultFetch)
          | some result =>
            if st.status = .failure ∨ st.status = .cancelled then
              .ret result (some (.ended jobId st.status))
            else .ret result none
        else jobWaitLoop jobId statusO resultO cancelled fuel (round + 1)

/-- `Job.WaitContext` starting at the first poll round. -/
def jobWaitContext (jobId : String) (statusO : Nat → Option AgentJobStatusS)
    (resultO : Nat → Option AgentJobResult) (cancelled : Nat → Bool)
    (fuel : Nat) : JobWaitOut :=
  jobWaitLoop jobId statusO resultO cancelled fuel 0

/-- C7: when the wait observes a terminal status at round n (after n
non-terminal rounds, without cancellation or fetch errors) the fetched result
is returned even on failure: with an error naming the job id and the ending
status when that status is failure or cancelled, and with no error when it is
success or cached.  The failure error's message names the job id and the
status text. -/
theorem jobWait_terminal_returns_result (jobId : String)
    (statusO : Nat → Option AgentJobStatusS)
    (resultO : Nat → Option AgentJobResult) (cancelled : Nat → Bool)
    (fuel n : Nat) (st : AgentJobStatusS) (result : AgentJobResult)
    (hfuel : n < fuel)
    (hbefore : ∀ k, k < n → cancelled k = false ∧
      ∃ s, statusO k = some s ∧ s.status.isTerminal = false)
    (hcanc : cancelled n = false)
    (hst : statusO n = some st)
    (hterm : st.status.isTerminal = true)
    (hres : resultO n = some result) :
    jobWaitContext jobId statusO resultO cancelled fuel =
      (if st.status = .failure ∨ st.status = .cancelled then
        JobWaitOut.ret result (some (.ended jobId st.status))
      else JobWaitOut.ret result none) ∧
    (JobWaitErr.ended jobId st.status).message =
      "job " ++ jobId ++ " ended with status " ++ st.status.text := by
  constructor
  · have main : ∀ m start, (∀ k, k < m → cancelled (start + k) = false ∧
        ∃ s, statusO (start + k) = some s ∧ s.status.isTerminal = false) →
        cancelled (start + m) = false → statusO (start + m) = some st →
        resultO (start + m) = some result →
        ∀ f, start + m < f →
        jobWaitLoop jobId statusO resultO cancelled (f - start) start =
          (if st.status = .failure ∨ st.status = .cancelled then
            JobWaitOut.ret result (some (.ended jobId st.status))
          else JobWaitOut.ret result none) := by
      intro m
      induction m with
      | zero =>
        intro start hb hc hs hr f hf
        obtain ⟨f', hf'⟩ : ∃ f', f - start = f' + 1 := ⟨f - start - 1, by omega⟩
        rw [hf', jobWaitLoop]
        simp only [Nat.add_zero] at hc hs hr
        rw [if_neg (by simp [hc]), hs]
        simp only [hterm, if_true, hr]
      | succ m ih =>
        intro start hb hc hs hr f hf
        obtain ⟨f', hf'⟩ : ∃ f', f - start = f' + 1 := ⟨f - start - 1, by omega⟩
        rw [hf', jobWaitLoop]
        obtain ⟨hc0, s0, hs0, hnt0⟩ := by
          have := hb 0 (by omega)
          simpa using this
        rw [if_neg (by simp [hc0]), hs0]
        simp only [hnt0, Bool.false_eq_true, if_false]
        have hrec := ih (start + 1)
          (fun k hk => by
            have := hb (k + 1) (by omega)
            constructor
            · have h1 := this.1
              have : start + 1 + k = start + (k + 1) := by omega
              rw [this]
              exact h1
            · have h2 := this.2
              have heq : start + 1 + k = start + (k + 1) := by omega
              rw [heq]
              exact h2)
          (by have : start + 1 + m = start + (m + 1) := by omega
              rw [this]; exact hc)
          (by have : start + 1 + m = start + (m + 1) := by omega
              rw [this]; exact hs)
          (by have : start + 1 + m = start + (m + 1) := by omega
              rw [this]; exact hr)
          f (by omega)
        have : f - (start + 1) = f' := by omega
        rw [this] at hrec
        exact hrec
    have h := main n 0 (by simpa using hbefore) (by simpa using hcanc)
      (by simpa using hst) (by simpa using hres) fuel (by omega)
    simpa [jobWaitContext] using h
  · simp only [JobWaitErr.message, goSprintf, goSprintfAux, String.toList]
    apply String.ext
    simp [String.data_append, List.append_assoc]

/-- C7 witness: the theorem applied to a concrete run that polls one pending
round and then observes a failure status, returning the fetched result
together with the "ended with status failure" error. -/
theorem jobWait_terminal_returns_result_witness :
    jobWaitContext "job-7"
        (fun k => if k = 0 then
          some { status := .pending, timestamp := 0, errorMessage := none }
          else some { status := .failure, timestamp := 0, errorMessage := none })
        (fun _ => some AgentJobResult.zero) (fun _ => false) 5 =
      JobWaitOut.ret AgentJobResult.zero
        (some (.ended "job-7" JobStatus.failure)) := by
  have h := (jobWait_terminal_returns_result "job-7"
      (fun k => if k = 0 then
        some { status := .pending, timestamp := 0, errorMessage := none }
        else some { status := .failure, timestamp := 0, errorMessage := none })
      (fun _ => some AgentJobResult.zero) (fun _ => false) 5 1
      { status := .failure, timestamp := 0, errorMessage := none }
      AgentJobResult.zero (by omega)
      (fun k hk => by
        interval_cases k
        exact ⟨rfl, { status := .pending, timestamp := 0, errorMessage := none },
          rfl, rfl⟩)
      rfl rfl rfl rfl).1
  simpa using h

/-! ## Batch status/result retrieval (agents_api.go) -/

/-- Go map insert with overwrite: the new binding shadows (replaces) any old
binding of the same key. -/
def mapInsert (m : List (String × α)) (k : String) (v : α) : List (String × α) :=
  (k, v) :: m.filter (fun p => p.1 != k)

/-- Go map lookup. -/
def mapLookup (m : List (String × α)) (k : String) : Option α :=
  (m.find? (fun p => p.1 == k)).map (fun p => p.2)

lemma mapLookup_insert (m : List (String × α)) (k : String) (v : α) (k' : String) :
    mapLookup (mapInsert m k v) k' = if k' = k then some v else mapLookup m k' := by
  by_cases h : k' = k
  · subst h
    simp [mapLookup, mapInsert, List.find?_cons]
  · rw [if_neg h]
    have hbne : (k == k') = false := by
      simp [bne]
      exact fun he => h he.symm
    simp only [mapLookup, mapInsert, List.find?_cons, hbne]
    congr 1
    induction m with
    | nil => rfl
    | cons p rest ih =>
      by_cases hp : p.1 = k
      · have h1 : (p.1 != k) = false := by simp [hp]
        have h2 : (p.1 == k') = false := by
          simp [hp]
          exact fun he => h he.symm
        simp only [List.filter_cons, h1, Bool.false_eq_true, if_false,
          List.find?_cons, h2]
        exact ih
      · have h1 : (p.1 != k) = true := by simp [hp]
        simp only [List.filter_cons, h1, if_true, List.find?_cons]
        cases hpk : (p.1 == k') with
        | true => rfl
        | false => exact ih

lemma mem_of_getElem?_some {l : List α} {i : Nat} {a : α} (h : l[i]? = some a) :
    a ∈ l := by
  obtain ⟨hlt, heq⟩ := List.getElem?_eq_some_iff.mp h
  exact heq ▸ List.getElem_mem hlt

lemma contains_iff_mem_str {l : List String} {a : String} :
    l.contains a = true ↔ a ∈ l := by simp

/-- `AgentJobStatusBatch` from types.go; the `any` timestamps are decoded
JSON values. -/
structure AgentJobStatusBatch where
  id : String
  status : Option JobStatus
  createdAt : Jv
  lastUpdatedAt : Jv

/-- The placeholder `AgentJobStatusBatch{ID: id}` the batch call prefills. -/
def AgentJobStatusBatch.zeroFor (id : String) : AgentJobStatusBatch :=
  { id := id, status := none, createdAt := .null, lastUpdatedAt := .null }

/-- The placeholder `AgentJobResultBatch{ID: id}` the batch call prefills. -/
def AgentJobResultBatch.zeroFor (id : String) : AgentJobResultBatch :=
  { id := id, status := none, result := .null, corrected := [],
    agentID := none, agentVersionID := none, cost := none, inputs := [],
    inputTokens := none, outputTokens := none }

/-- The errors of `RetrieveStatusManyWithContext` /
`RetrieveResultManyWithContext`: a failed chunk POST, or requested ids
missing from the combined responses. -/
inductive ManyErr where
  | fetch (chunkIdx : Nat)
  | missing (ids : List String)

/-- The `order` map: `for idx, id := range jobIDs { order[id] = idx }`. -/
def buildOrder (ids : List String) : List (String × Nat) :=
  ids.enum.foldl (fun m p => mapInsert m p.2 p.1) []

/-- One chunk response processed into the prefilled results and the received
set (the `for _, st := range resp` loop): entries whose id was requested
overwrite the slot at that id's index, all other entries are ignored. -/
def placeEntries (idOf : β → String) (order : List (String × Nat)) :
    List β → List β × List String → List β × List String
  | [], st => st
  | e :: rest, st =>
    placeEntries idOf order rest
      (match mapLookup order (idOf e) with
       | some idx => (st.1.set idx e, st.2 ++ [idOf e])
       | none => st)

/-- The chunked fetch loop: one POST per chunk index, each response placed
into the accumulated state; a failed POST aborts. -/
def fetchChunks (idOf : β → String) (order : List (String × Nat))
    (respOf : Nat → Option (List β)) :
    List Nat → List β × List String → Except ManyErr (List β × List String)
  | [], st => .ok st
  | k :: ks, st =>
    match respOf k with
    | none => .error (.fetch k)
    | some resp =>
      fetchChunks idOf order respOf ks (placeEntries idOf order resp st)

/-- The shared body of `RetrieveStatusManyWithContext` and
`RetrieveResultManyWithContext` (agents_api.go, textually duplicated per
entry type in Go): prefill one placeholder per requested id, fetch the ids in
chunks of `maxBatchSize`, place each response entry at its requested index,
and fail listing every requested id missing from the combined responses.
`respOf` gives the raw response of the chunk-indexed POST (`none` is an HTTP
error). -/
def retrieveManyGo (mkZero : String → β) (idOf : β → String)
    (respOf : Nat → Option (List β)) (jobIDs : List String) :
    Except ManyErr (List β) :=
  if jobIDs.isEmpty then .ok []
  else
    let order := buildOrder jobIDs
    let init := jobIDs.map mkZero
    match fetchChunks idOf order respOf
        (List.range (chunkStrings jobIDs maxBatchSize).length) (init, []) with
    | .error e => .error e
    | .ok (results, received) =>
      let missing := jobIDs.filter (fun id => !received.contains id)
      if missing.isEmpty then .ok results else .error (.missing missing)

lemma foldl_insert_lookup (id : String) (ps : List (Nat × String)) :
    ∀ m, mapLookup (ps.foldl (fun acc p => mapInsert acc p.2 p.1) m) id =
      match (ps.filter (fun p => p.2 == id)).getLast? with
      | some p => some p.1
      | none => mapLookup m id := by
  induction ps with
  | nil => intro m; rfl
  | cons p rest ih =>
    intro m
    rw [List.foldl_cons, ih]
    by_cases hp : p.2 = id
    · have hb : (p.2 == id) = true := by simp [hp]
      simp only [List.filter_cons, hb, if_true]
      cases hfil : rest.filter (fun q => q.2 == id) with
      | nil =>
        simp only [List.getLast?_nil, List.getLast?_singleton]
        rw [mapLookup_insert, if_pos hp.symm]
      | cons q qs =>
        rw [List.getLast?_cons_cons]
        cases hql : (q :: qs).getLast? with
        | some r => rfl
        | none =>
          rw [List.getLast?_eq_none_iff] at hql
          cases hql
    · have hb : (p.2 == id) = false := by simp [hp]
      simp only [List.filter_cons, hb, Bool.false_eq_true, if_false]
      cases hfil : rest.filter (fun q => q.2 == id) with
      | nil =>
        simp only [List.getLast?_nil]
        rw [mapLookup_insert, if_neg (fun he => hp he.symm)]
      | cons q qs => rfl

lemma buildOrder_lookup (ids : List String) (id : String) :
    mapLookup (buildOrder ids) id =
      ((ids.enum.filter (fun p => p.2 == id)).getLast?).map (fun p => p.1) := by
  rw [buildOrder, foldl_insert_lookup]
  cases (ids.enum.filter (fun p => p.2 == id)).getLast? with
  | some p => rfl
  | none => rfl

/-- Every binding the order map produces points back at the id list. -/
lemma buildOrder_sound (ids : List String) (id : String) (idx : Nat)
    (h : mapLookup (buildOrder ids) id = some idx) : ids[idx]? = some id := by
  rw [buildOrder_lookup] at h
  cases hlast : (ids.enum.filter (fun p => p.2 == id)).getLast? with
  | none => rw [hlast] at h; cases h
  | some p =>
    rw [hlast] at h
    simp at h
    have hmem : p ∈ ids.enum.filter (fun p => p.2 == id) := by
      obtain ⟨ys, hys⟩ := List.getLast?_eq_some_iff.mp hlast
      rw [hys]
      simp
    have := List.mem_filter.mp hmem
    have hid : p.2 = id := by simpa using this.2
    have henum := List.mem_enum_iff_getElem?.mp this.1
    rw [← h, ← hid]
    exact henum

/-- For a duplicate-free id list, the order map holds exactly each id's
index. -/
lemma buildOrder_complete (ids : List String) (hnd : ids.Nodup) (i : Nat)
    (id : String) (hi : ids[i]? = some id) :
    mapLookup (buildOrder ids) id = some i := by
  rw [buildOrder_lookup]
  have hmem : ((i, id) : Nat × String) ∈ ids.enum.filter (fun p => p.2 == id) := by
    refine List.mem_filter.mpr ⟨?_, by simp⟩
    exact List.mem_enum_iff_getElem?.mpr hi
  have hne : ids.enum.filter (fun p => p.2 == id) ≠ [] := by
    intro hh
    rw [hh] at hmem
    cases hmem
  cases hlast : (ids.enum.filter (fun p => p.2 == id)).getLast? with
  | none =>
    rw [List.getLast?_eq_none_iff] at hlast
    exact absurd hlast hne
  | some p =>
    have hpmem : p ∈ ids.enum.filter (fun p => p.2 == id) := by
      obtain ⟨ys, hys⟩ := List.getLast?_eq_some_iff.mp hlast
      rw [hys]; simp
    have hpf := List.mem_filter.mp hpmem
    have hpid : p.2 = id := by simpa using hpf.2
    have hpe := List.mem_enum_iff_getElem?.mp hpf.1
    rw [hpid] at hpe
    have : p.1 = i := by
      by_contra hne'
      have hlt : p.1 < ids.length := (List.getElem?_eq_some_iff.mp hpe).1
      exact hne' (List.getElem?_inj hlt hnd (hpe.trans hi.symm))
    simp [this]

/-- An id absent from the request list is absent from the order map. -/
lemma buildOrder_none (ids : List String) (id : String) (h : id ∉ ids) :
    mapLookup (buildOrder ids) id = none := by
  cases hlk : mapLookup (buildOrder ids) id with
  | none => rfl
  | some idx =>
    have hsound := buildOrder_sound ids id idx hlk
    obtain ⟨hlt, heq⟩ := List.getElem?_eq_some_iff.mp hsound
    exact absurd (heq ▸ List.getElem_mem hlt) h

/-- The last response entry carrying the given id, across the combined
responses in arrival order: the value the overwriting placement loop leaves
at that id's slot. -/
def lastFor (idOf : β → String) (es : List β) (id : String) : Option β :=
  (es.filter (fun e => idOf e == id)).getLast?

lemma lastFor_append_one (idOf : β → String) (es : List β) (e : β) (id : String) :
    lastFor idOf (es ++ [e]) id =
      if idOf e = id then some e else lastFor idOf es id := by
  unfold lastFor
  rw [List.filter_append, List.getLast?_append]
  by_cases h : idOf e = id
  · simp [h]
  · have hb : (idOf e == id) = false := by simp [h]
    simp [hb, Option.none_or]
    rw [if_neg h]

/-- Placement preserves the pointwise id agreement between the result slots
and the requested ids (no duplicate-freedom needed). -/
lemma placeEntries_pointwise (idOf : β → String) (ids : List String) :
    ∀ (resp : List β) (rs : List β) (recvd : List String),
      rs.length = ids.length →
      (∀ (i : Nat) (e : β), rs[i]? = some e → ids[i]? = some (idOf e)) →
      (placeEntries idOf (buildOrder ids) resp (rs, recvd)).1.length = ids.length ∧
      (∀ (i : Nat) (e : β), (placeEntries idOf (buildOrder ids) resp (rs, recvd)).1[i]? = some e →
        ids[i]? = some (idOf e)) := by
  intro resp
  induction resp with
  | nil => intro rs recvd h1 h2; exact ⟨h1, h2⟩
  | cons e rest ih =>
    intro rs recvd h1 h2
    simp only [placeEntries]
    cases hlk : mapLookup (buildOrder ids) (idOf e) with
    | none => exact ih rs recvd h1 h2
    | some idx =>
      simp only
      have hsound := buildOrder_sound ids (idOf e) idx hlk
      refine ih (rs.set idx e) (recvd ++ [idOf e]) (by simpa using h1) ?_
      intro i e' he'
      by_cases hieq : i = idx
      · subst hieq
        by_cases hlt : i < rs.length
        · rw [List.getElem?_set_eq_of_lt e hlt] at he'
          cases he'
          exact hsound
        · rw [List.set_eq_of_length_le (by omega)] at he'
          exact h2 i e' he'
      · rw [List.getElem?_set_ne (fun hh => hieq hh.symm)] at he'
        exact h2 i e' he'

/-- The chunk loop preserves the pointwise id agreement. -/
lemma fetchChunks_pointwise (idOf : β → String) (ids : List String)
    (respOf : Nat → Option (List β)) :
    ∀ (ks : List Nat) (rs : List β) (recvd : List String)
      (out : List β × List String),
      rs.length = ids.length →
      (∀ (i : Nat) (e : β), rs[i]? = some e → ids[i]? = some (idOf e)) →
      fetchChunks idOf (buildOrder ids) respOf ks (rs, recvd) = .ok out →
      out.1.length = ids.length ∧
      (∀ (i : Nat) (e : β), out.1[i]? = some e → ids[i]? = some (idOf e)) := by
  intro ks
  induction ks with
  | nil =>
    intro rs recvd out h1 h2 h
    simp only [fetchChunks] at h
    cases h
    exact ⟨h1, h2⟩
  | cons k krest ih =>
    intro rs recvd out h1 h2 h
    simp only [fetchChunks] at h
    cases hr : respOf k with
    | none => rw [hr] at h; cases h
    | some resp =>
      rw [hr] at h
      simp only at h
      have hpe := placeEntries_pointwise idOf ids resp rs recvd h1 h2
      exact ih (placeEntries idOf (buildOrder ids) resp (rs, recvd)).1
        (placeEntries idOf (buildOrder ids) resp (rs, recvd)).2 out hpe.1 hpe.2 h

/-- A successful many-retrieval returns one entry per requested id, at that
id's index (no duplicate-freedom needed for this direction). -/
lemma retrieveManyGo_ok_pointwise (mkZero : String → β) (idOf : β → String)
    (hmk : ∀ id, idOf (mkZero id) = id) (respOf : Nat → Option (List β))
    (ids : List String) (rsOut : List β)
    (h : retrieveManyGo mkZero idOf respOf ids = .ok rsOut) :
    rsOut.length = ids.length ∧
    (∀ (i : Nat) (e : β), rsOut[i]? = some e → ids[i]? = some (idOf e)) ∧
    (∀ (i : Nat) (id : String), ids[i]? = some id → ∃ e, rsOut[i]? = some e ∧ idOf e = id) := by
  have hmain : rsOut.length = ids.length ∧
      (∀ (i : Nat) (e : β), rsOut[i]? = some e → ids[i]? = some (idOf e)) := by
    unfold retrieveManyGo at h
    by_cases hemp : ids.isEmpty
    · rw [if_pos hemp] at h
      cases h
      rw [List.isEmpty_iff] at hemp
      subst hemp
      refine ⟨rfl, ?_⟩
      intro i e he
      simp at he
    · rw [if_neg hemp] at h
      simp only at h
      cases hfc : fetchChunks idOf (buildOrder ids) respOf
          (List.range (chunkStrings ids maxBatchSize).length)
          (ids.map mkZero, []) with
      | error e => rw [hfc] at h; cases h
      | ok st =>
        rw [hfc] at h
        simp only at h
        by_cases hmiss : (ids.filter (fun id => !st.2.contains id)).isEmpty
        · rw [if_pos hmiss] at h
          cases h
          have hinit1 : (ids.map mkZero).length = ids.length := by simp
          have hinit2 : ∀ (i : Nat) (e : β), (ids.map mkZero)[i]? = some e →
              ids[i]? = some (idOf e) := by
            intro i e he
            rw [List.getElem?_map] at he
            cases hid : ids[i]? with
            | none => rw [hid] at he; cases he
            | some id =>
              rw [hid] at he
              have he' : mkZero id = e := by simpa using he
              rw [← he', hmk]
          have := fetchChunks_pointwise idOf ids respOf
            (List.range (chunkStrings ids maxBatchSize).length)
            (ids.map mkZero) [] st hinit1 hinit2 (by rw [hfc])
          exact this
        · rw [if_neg hmiss] at h
          cases h
  refine ⟨hmain.1, hmain.2, ?_⟩
  intro i id hi
  have hlt : i < ids.length := (List.getElem?_eq_some_iff.mp hi).1
  cases he : rsOut[i]? with
  | none =>
    rw [List.getElem?_eq_none_iff] at he
    omega
  | some e =>
    refine ⟨e, rfl, ?_⟩
    have := hmain.2 i e he
    rw [hi] at this
    cases this
    rfl

/-- Full characterisation of placement for a duplicate-free request list:
each slot holds the last response entry seen for its id (or the placeholder),
and the received set is exactly the requested ids seen so far. -/
lemma placeEntries_char (mkZero : String → β) (idOf : β → String)
    (ids : List String) (hnd : ids.Nodup) :
    ∀ (resp : List β) (rs : List β) (recvd : List String) (processed : List β),
      rs.length = ids.length →
      (∀ (i : Nat) (id : String), ids[i]? = some id →
        rs[i]? = some ((lastFor idOf processed id).getD (mkZero id))) →
      (∀ id, recvd.contains id = true ↔
        (id ∈ ids ∧ (lastFor idOf processed id).isSome = true)) →
      (placeEntries idOf (buildOrder ids) resp (rs, recvd)).1.length = ids.length ∧
      (∀ (i : Nat) (id : String), ids[i]? = some id →
        (placeEntries idOf (buildOrder ids) resp (rs, recvd)).1[i]? =
          some ((lastFor idOf (processed ++ resp) id).getD (mkZero id))) ∧
      (∀ id, (placeEntries idOf (buildOrder ids) resp (rs, recvd)).2.contains id = true ↔
        (id ∈ ids ∧ (lastFor idOf (processed ++ resp) id).isSome = true)) := by
  intro resp
  induction resp with
  | nil =>
    intro rs recvd processed h1 h2 h3
    simp only [placeEntries, List.append_nil]
    exact ⟨h1, h2, h3⟩
  | cons e rest ih =>
    intro rs recvd processed h1 h2 h3
    have hsplit : processed ++ e :: rest = (processed ++ [e]) ++ rest := by simp
    rw [hsplit]
    simp only [placeEntries]
    cases hlk : mapLookup (buildOrder ids) (idOf e) with
    | some idx =>
      simp only
      have hsound := buildOrder_sound ids (idOf e) idx hlk
      have hidxlt : idx < ids.length := (List.getElem?_eq_some_iff.mp hsound).1
      refine ih (rs.set idx e) (recvd ++ [idOf e]) (processed ++ [e])
        (by simpa using h1) ?_ ?_
      · intro i id hi
        by_cases hieq : i = idx
        · subst hieq
          have hide : id = idOf e := by
            rw [hi] at hsound
            cases hsound
            rfl
          subst hide
          rw [List.getElem?_set_eq_of_lt e (by omega)]
          rw [lastFor_append_one, if_pos rfl]
          rfl
        · rw [List.getElem?_set_ne (fun hh => hieq hh.symm)]
          have hne : idOf e ≠ id := by
            intro hh
            rw [hh] at hsound
            exact hieq (List.getElem?_inj (List.getElem?_eq_some_iff.mp hi).1
              hnd (hi.trans hsound.symm))
          rw [lastFor_append_one, if_neg hne]
          exact h2 i id hi
      · intro id
        have hmem : (id ∈ recvd ++ [idOf e]) ↔ (id ∈ recvd ∨ id = idOf e) := by
          simp
        by_cases hide : id = idOf e
        · subst hide
          constructor
          · intro _
            refine ⟨?_, ?_⟩
            · exact mem_of_getElem?_some hsound
            · rw [lastFor_append_one, if_pos rfl]
              rfl
          · intro _
            simp
        · constructor
          · intro hc
            have : id ∈ recvd := by
              have := contains_iff_mem_str.mp hc
              rcases hmem.mp this with hh | hh
              · exact hh
              · exact absurd hh hide
            have := h3 id |>.mp (contains_iff_mem_str.mpr this)
            refine ⟨this.1, ?_⟩
            rw [lastFor_append_one, if_neg (fun hh => hide hh.symm)]
            exact this.2
          · intro ⟨hin, hsome⟩
            rw [lastFor_append_one, if_neg (fun hh => hide hh.symm)] at hsome
            have := h3 id |>.mpr ⟨hin, hsome⟩
            have hm := contains_iff_mem_str.mp this
            exact contains_iff_mem_str.mpr (hmem.mpr (Or.inl hm))
    | none =>
      have hnotin : idOf e ∉ ids := by
        intro hin
        obtain ⟨i, hlt, hie⟩ := List.mem_iff_getElem.mp hin
        have := buildOrder_complete ids hnd i (idOf e)
          (by rw [List.getElem?_eq_getElem hlt, hie])
        rw [hlk] at this
        cases this
      refine ih rs recvd (processed ++ [e]) h1 ?_ ?_
      · intro i id hi
        have hne : idOf e ≠ id := by
          intro hh
          exact hnotin (hh ▸ mem_of_getElem?_some hi)
        rw [lastFor_append_one, if_neg hne]
        exact h2 i id hi
      · intro id
        by_cases hin : id ∈ ids
        · have hne : idOf e ≠ id := fun hh => hnotin (hh ▸ hin)
          rw [lastFor_append_one, if_neg hne]
          exact h3 id
        · constructor
          · intro hc
            exact absurd ((h3 id).mp hc).1 hin
          · intro ⟨hin', _⟩
            exact absurd hin' hin

/-- Characterisation of the chunk loop when every chunk POST succeeds. -/
lemma fetchChunks_char (mkZero : String → β) (idOf : β → String)
    (ids : List String) (hnd : ids.Nodup) (resp : Nat → List β) :
    ∀ (ks : List Nat) (rs : List β) (recvd : List String) (processed : List β),
      rs.length = ids.length →
      (∀ (i : Nat) (id : String), ids[i]? = some id →
        rs[i]? = some ((lastFor idOf processed id).getD (mkZero id))) →
      (∀ id, recvd.contains id = true ↔
        (id ∈ ids ∧ (lastFor idOf processed id).isSome = true)) →
      ∃ rs' recvd',
        fetchChunks idOf (buildOrder ids) (fun k => some (resp k)) ks (rs, recvd) =
          .ok (rs', recvd') ∧
        rs'.length = ids.length ∧
        (∀ (i : Nat) (id : String), ids[i]? = some id →
          rs'[i]? = some ((lastFor idOf (processed ++ (ks.map resp).flatten) id).getD
            (mkZero id))) ∧
        (∀ id, recvd'.contains id = true ↔
          (id ∈ ids ∧ (lastFor idOf (processed ++ (ks.map resp).flatten) id).isSome = true)) := by
  intro ks
  induction ks with
  | nil =>
    intro rs recvd processed h1 h2 h3
    exact ⟨rs, recvd, rfl, h1, by simpa using h2, by simpa using h3⟩
  | cons k krest ih =>
    intro rs recvd processed h1 h2 h3
    have hpc := placeEntries_char mkZero idOf ids hnd (resp k) rs recvd processed
      h1 h2 h3
    obtain ⟨rs', recvd', hfc, hl, hp, hr⟩ := ih
      (placeEntries idOf (buildOrder ids) (resp k) (rs, recvd)).1
      (placeEntries idOf (buildOrder ids) (resp k) (rs, recvd)).2
      (processed ++ resp k) hpc.1 hpc.2.1 hpc.2.2
    refine ⟨rs', recvd', ?_, hl, ?_, ?_⟩
    · simpa [fetchChunks] using hfc
    · intro i id hi
      have := hp i id hi
      simpa [List.append_assoc] using this
    · intro id
      have := hr id
      simpa [List.append_assoc] using this

/-- Characterisation of the shared many-retrieval body on a non-empty,
duplicate-free request list when every chunk POST succeeds: the requested ids
missing from the combined responses determine failure (listing exactly those
ids, in request order), and on success the i-th slot holds the last combined
response entry for the i-th requested id — response order and unrequested
entries cannot influence the outcome. -/
lemma retrieveManyGo_char (mkZero : String → β) (idOf : β → String)
    (ids : List String) (hne : ids ≠ [])
    (hnd : ids.Nodup) (resp : Nat → List β) :
    retrieveManyGo mkZero idOf (fun k => some (resp k)) ids =
      (if (ids.filter (fun id => !(lastFor idOf
            (((List.range (chunkStrings ids maxBatchSize).length).map resp).flatten)
            id).isSome)).isEmpty
       then .ok (ids.map (fun id => (lastFor idOf
          (((List.range (chunkStrings ids maxBatchSize).length).map resp).flatten)
          id).getD (mkZero id)))
       else .error (.missing (ids.filter (fun id => !(lastFor idOf
          (((List.range (chunkStrings ids maxBatchSize).length).map resp).flatten)
          id).isSome)))) := by
  have hemp : ids.isEmpty = false := by
    simpa using hne
  unfold retrieveManyGo
  rw [hemp]
  simp only [Bool.false_eq_true, if_false]
  have hinit2 : ∀ (i : Nat) (id : String), ids[i]? = some id →
      (ids.map mkZero)[i]? = some ((lastFor idOf [] id).getD (mkZero id)) := by
    intro i id hi
    rw [List.getElem?_map, hi]
    simp [lastFor]
  have hinit3 : ∀ id, ([] : List String).contains id = true ↔
      (id ∈ ids ∧ (lastFor idOf [] id).isSome = true) := by
    intro id
    simp [lastFor]
  obtain ⟨rs', recvd', hfc, hl, hp, hr⟩ := fetchChunks_char mkZero idOf ids hnd
    resp (List.range (chunkStrings ids maxBatchSize).length) (ids.map mkZero) [] []
    (by simp) hinit2 hinit3
  rw [hfc]
  dsimp only
  simp only [List.nil_append] at hp hr
  have hfilter : ids.filter (fun id => !recvd'.contains id) =
      ids.filter (fun id => !(lastFor idOf
        (((List.range (chunkStrings ids maxBatchSize).length).map resp).flatten)
        id).isSome) := by
    apply List.filter_congr
    intro id hid
    have hiff := hr id
    cases hcontains : recvd'.contains id with
    | true =>
      have := (hiff.mp hcontains).2
      simp [this]
    | false =>
      cases hsome : (lastFor idOf
          (((List.range (chunkStrings ids maxBatchSize).length).map resp).flatten)
          id).isSome with
      | true =>
        have := hiff.mpr ⟨hid, hsome⟩
        rw [hcontains] at this
        cases this
      | false => rfl
  rw [hfilter]
  by_cases hmiss : (ids.filter (fun id => !(lastFor idOf
      (((List.range (chunkStrings ids maxBatchSize).length).map resp).flatten)
      id).isSome)).isEmpty
  · rw [if_pos hmiss, if_pos hmiss]
    congr 1
    apply List.ext_getElem?
    intro i
    cases hi : ids[i]? with
    | some id =>
      rw [hp i id hi, List.getElem?_map, hi]
      rfl
    | none =>
      rw [List.getElem?_map, hi]
      rw [List.getElem?_eq_none_iff] at hi
      show rs'[i]? = none
      rw [List.getElem?_eq_none_iff]
      omega
  · rw [if_neg hmiss, if_neg hmiss]

/-- `AgentJobsAPI.RetrieveStatusManyWithContext` from agents_api.go. -/
def retrieveStatusMany (respOf : Nat → Option (List AgentJobStatusBatch))
    (jobIDs : List String) : Except ManyErr (List AgentJobStatusBatch) :=
  retrieveManyGo AgentJobStatusBatch.zeroFor (fun e => e.id) respOf jobIDs

/-- `AgentJobsAPI.RetrieveResultManyWithContext` from agents_api.go. -/
def retrieveResultMany (respOf : Nat → Option (List AgentJobResultBatch))
    (jobIDs : List String) : Except ManyErr (List AgentJobResultBatch) :=
  retrieveManyGo AgentJobResultBatch.zeroFor (fun e => e.id) respOf jobIDs

lemma lastFor_getD_id (idOf : β → String) (mkZero : String → β)
    (es : List β) (id : String) (hmk : idOf (mkZero id) = id) :
    idOf ((lastFor idOf es id).getD (mkZero id)) = id := by
  cases h : lastFor idOf es id with
  | none => simpa using hmk
  | some e =>
    have hmem : e ∈ es.filter (fun e => idOf e == id) := by
      obtain ⟨ys, hys⟩ := List.getLast?_eq_some_iff.mp h
      rw [hys]; simp
    have := (List.mem_filter.mp hmem).2
    simpa using this

/-- C10: on a non-empty duplicate-free request list with every chunk POST
succeeding, `RetrieveStatusManyWithContext` and
`RetrieveResultManyWithContext` return exactly one entry per requested id,
positioned at that id's index in the request list (the last combined response
entry for that id, the response order being irrelevant and unrequested
entries being ignored), and when some requested id is absent from the
combined responses they return an error listing exactly the missing ids, in
request order, with no result slice. -/
theorem retrieveMany_ordered_spec (resp : Nat → List AgentJobStatusBatch)
    (resr : Nat → List AgentJobResultBatch) (jobIDs : List String)
    (hne : jobIDs ≠ []) (hnd : jobIDs.Nodup) :
    (retrieveStatusMany (fun k => some (resp k)) jobIDs =
      (if (jobIDs.filter (fun id => !(lastFor (fun e => e.id)
            (((List.range (chunkStrings jobIDs maxBatchSize).length).map resp).flatten)
            id).isSome)).isEmpty
       then .ok (jobIDs.map (fun id => (lastFor (fun e => e.id)
          (((List.range (chunkStrings jobIDs maxBatchSize).length).map resp).flatten)
          id).getD (AgentJobStatusBatch.zeroFor id)))
       else .error (.missing (jobIDs.filter (fun id => !(lastFor (fun e => e.id)
          (((List.range (chunkStrings jobIDs maxBatchSize).length).map resp).flatten)
          id).isSome))))) ∧
    (retrieveResultMany (fun k => some (resr k)) jobIDs =
      (if (jobIDs.filter (fun id => !(lastFor (fun e => e.id)
            (((List.range (chunkStrings jobIDs maxBatchSize).length).map resr).flatten)
            id).isSome)).isEmpty
       then .ok (jobIDs.map (fun id => (lastFor (fun e => e.id)
          (((List.range (chunkStrings jobIDs maxBatchSize).length).map resr).flatten)
          id).getD (AgentJobResultBatch.zeroFor id)))
       else .error (.missing (jobIDs.filter (fun id => !(lastFor (fun e => e.id)
          (((List.range (chunkStrings jobIDs maxBatchSize).length).map resr).flatten)
          id).isSome))))) ∧
    (∀ (es : List AgentJobStatusBatch) (id : String),
      ((lastFor (fun e => e.id) es id).getD (AgentJobStatusBatch.zeroFor id)).id = id) ∧
    (∀ (es : List AgentJobResultBatch) (id : String),
      ((lastFor (fun e => e.id) es id).getD (AgentJobResultBatch.zeroFor id)).id = id) :=
  ⟨retrieveManyGo_char AgentJobStatusBatch.zeroFor (fun e => e.id) jobIDs hne hnd resp,
   retrieveManyGo_char AgentJobResultBatch.zeroFor (fun e => e.id) jobIDs hne hnd resr,
   fun es id => lastFor_getD_id (fun e => e.id) AgentJobStatusBatch.zeroFor es id rfl,
   fun es id => lastFor_getD_id (fun e => e.id) AgentJobResultBatch.zeroFor es id rfl⟩

/-- C10 witness: the theorem applied to the two-job request ["a", "b"] with a
single response listing the entries out of order and including an unrequested
entry: the output is ordered ["a", "b"] and the stray entry is ignored. -/
theorem retrieveMany_ordered_spec_witness :
    retrieveStatusMany
        (fun _ => some
          [{ id := "b", status := some .success, createdAt := .null, lastUpdatedAt := .null },
           { id := "zzz", status := some .failure, createdAt := .null, lastUpdatedAt := .null },
           { id := "a", status := some .cached, createdAt := .null, lastUpdatedAt := .null }])
        ["a", "b"] =
      .ok [{ id := "a", status := some .cached, createdAt := .null, lastUpdatedAt := .null },
           { id := "b", status := some .success, createdAt := .null, lastUpdatedAt := .null }] := by
  have h := (retrieveMany_ordered_spec
      (fun _ =>
        [{ id := "b", status := some .success, createdAt := .null, lastUpdatedAt := .null },
         { id := "zzz", status := some .failure, createdAt := .null, lastUpdatedAt := .null },
         { id := "a", status := some .cached, createdAt := .null, lastUpdatedAt := .null }])
      (fun _ => []) ["a", "b"] (by decide) (by decide)).1
  rw [h]
  rfl

/-! ## Batch poller (JobBatch.WaitContext, job.go) -/

/-- The state a `JobBatch` carries across `WaitContext` rounds: the canonical
id order fixed at creation, and the mutable status/result maps.  The
`agentsAPI` pointer and the timeout are the network and clock, modelled by
the oracles. -/
structure JobBatchState where
  jobIDs : List String
  statuses : List (String × JobStatus)
  completed : List (String × AgentJobResult)

/-- The errors that abort `JobBatch.WaitContext` with no result slice. -/
inductive WaitErr where
  | statusFetch (e : ManyErr)
  | resultFetch (e : ManyErr)
  | convert (e : ConvErr)
  | missingResult (id : String)

/-- The observable outcome of `JobBatch.WaitContext`. `okFailed` is the
results slice together with the aggregate failed/cancelled-jobs error;
`fuelOut` means the model's round budget ran out while Go would still be
polling. -/
inductive WaitOutcome where
  | ok (results : List AgentJobResult)
  | okFailed (results : List AgentJobResult) (failedIds : List String)
  | cancelledWait
  | failed (e : WaitErr)
  | fuelOut

/-- The results slice of an outcome that completed without cancellation or
fetch error (the failed/cancelled-jobs aggregate error still returns the
slice). -/
def waitResults : WaitOutcome → Option (List AgentJobResult)
  | .ok rs => some rs
  | .okFailed rs _ => some rs
  | _ => none

/-- The result-conversion loop of one `WaitContext` round: convert each batch
entry, record it in the received and completed maps, and track
failed/cancelled statuses (against the statuses updated earlier in the same
round). -/
def processBatchResults (sts : List (String × JobStatus)) :
    List AgentJobResultBatch →
    List (String × AgentJobResult) → List (String × AgentJobResult) →
    List (String × JobStatus) →
    Except ConvErr
      (List (String × AgentJobResult) × List (String × AgentJobResult) ×
        List (String × JobStatus))
  | [], recvd, comp, fails => .ok (recvd, comp, fails)
  | res :: rest, recvd, comp, fails =>
    match convertBatchResult res with
    | .error e => .error e
    | .ok converted =>
      let recvd' := mapInsert recvd res.id converted
      let comp' := mapInsert comp res.id converted
      let fails' :=
        match mapLookup sts res.id with
        | some st =>
          if st = .failure ∨ st = .cancelled then mapInsert fails res.id st
          else fails
        | none => fails
      processBatchResults sts rest recvd' comp' fails'

/-- `removeCompleted` from job.go. -/
def removeCompleted (pending completed : List String) : List String :=
  if completed.isEmpty then pending
  else pending.filter (fun id => !completed.contains id)

/-- The final assembly after the polling loop: iterate the canonical id order
emitting each completed result, with the aggregate error when any job failed
or was cancelled (`mapKeys` iterates a Go map, so the failed-id order is
unspecified; the model uses the failure map's list order). -/
def waitFinish (b : JobBatchState) (failures : List (String × JobStatus)) :
    WaitOutcome × JobBatchState :=
  let results := b.jobIDs.filterMap (fun id => mapLookup b.completed id)
  if failures.isEmpty then (.ok results, b)
  else (.okFailed results (failures.map (fun p => p.1)), b)

/-- The polling loop of `JobBatch.WaitContext`: while ids are pending, check
cancellation, batch-fetch statuses of the pending ids, update the status map
and collect the terminal ("ready") subset, batch-fetch and convert the ready
results, require every ready id in the response, then drop the ready ids from
pending; when pending is empty, assemble the results in canonical order.
`statusO`/`resultO` give the raw chunk responses per round; `cancelled` is
the context state at the round's start (a cancellation during the inter-poll
sleep of round n is observationally the loop-top check of round n+1). -/
def batchWaitLoop (statusO : Nat → Nat → Option (List AgentJobStatusBatch))
    (resultO : Nat → Nat → Option (List AgentJobResultBatch))
    (cancelled : Nat → Bool) :
    Nat → Nat → JobBatchState → List String → List (String × JobStatus) →
    WaitOutcome × JobBatchState
  | 0, _, b, _, _ => (.fuelOut, b)
  | fuel + 1, round, b, pending, failures =>
    if pending.isEmpty then waitFinish b failures
    else if cancelled round then (.cancelledWait, b)
    else
      match retrieveStatusMany (statusO round) pending with
      | .error e => (.failed (.statusFetch e), b)
      | .ok statusBatch =>
        let stsReady := statusBatch.foldl
          (fun (acc : List (String × JobStatus) × List String) st =>
            match st.status with
            | some s =>
              (mapInsert acc.1 st.id s,
               if s.isTerminal then acc.2 ++ [st.id] else acc.2)
            | none => acc)
          (b.statuses, [])
        let b1 : JobBatchState := { b with statuses := stsReady.1 }
        if stsReady.2.isEmpty then
          batchWaitLoop statusO resultO cancelled fuel (round + 1) b1 pending failures
        else
          match retrieveResultMany (resultO round) stsReady.2 with
          | .error e => (.failed (.resultFetch e), b1)
          | .ok resultsBatch =>
            match processBatchResults stsReady.1 resultsBatch [] b1.completed failures with
            | .error e => (.failed (.convert e), b1)
            | .ok (received, comp, fails) =>
              let b2 : JobBatchState := { b1 with completed := comp }
              match stsReady.2.find? (fun id => (mapLookup received id).isNone) with
              | some id => (.failed (.missingResult id), b2)
              | none =>
                let pending' := removeCompleted pending stsReady.2
                if pending'.isEmpty then waitFinish b2 fails
                else batchWaitLoop statusO resultO cancelled fuel (round + 1)
                  b2 pending' fails

/-- `JobBatch.WaitContext`: pending starts as a copy of the canonical id
list, the failure map starts empty. -/
def batchWaitContext (statusO : Nat → Nat → Option (List AgentJobStatusBatch))
    (resultO : Nat → Nat → Option (List AgentJobResultBatch))
    (cancelled : Nat → Bool) (fuel : Nat) (b : JobBatchState) :
    WaitOutcome × JobBatchState :=
  batchWaitLoop statusO resultO cancelled fuel 0 b b.jobIDs []

/-- `r` is the converted result of some batch entry carrying the id `id`. -/
def convertedFor (id : String) (r : AgentJobResult) : Prop :=
  ∃ e : AgentJobResultBatch, e.id = id ∧ convertBatchResult e = .ok r

/-- What the result-conversion loop guarantees on success: completed entries
originate from converted batch entries of matching id, the completed map only
grows, and every processed entry's id ends up completed. -/
lemma processBatchResults_spec (sts : List (String × JobStatus)) :
    ∀ (entries : List AgentJobResultBatch)
      (recvd comp : List (String × AgentJobResult))
      (fails : List (String × JobStatus))
      (recvd' comp' : List (String × AgentJobResult))
      (fails' : List (String × JobStatus)),
      processBatchResults sts entries recvd comp fails = .ok (recvd', comp', fails') →
      (∀ id r, mapLookup comp' id = some r →
        mapLookup comp id = some r ∨ convertedFor id r) ∧
      (∀ id, (mapLookup comp id).isSome = true → (mapLookup comp' id).isSome = true) ∧
      (∀ e ∈ entries, ∃ r, mapLookup comp' e.id = some r ∧ convertedFor e.id r) := by
  intro entries
  induction entries with
  | nil =>
    intro recvd comp fails recvd' comp' fails' h
    simp only [processBatchResults] at h
    cases h
    refine ⟨fun id r hr => Or.inl hr, fun id h => h, ?_⟩
    intro e he
    cases he
  | cons res rest ih =>
    intro recvd comp fails recvd' comp' fails' h
    simp only [processBatchResults] at h
    cases hconv : convertBatchResult res with
    | error e => rw [hconv] at h; cases h
    | ok converted =>
      rw [hconv] at h
      simp only at h
      have hih := ih (mapInsert recvd res.id converted)
        (mapInsert comp res.id converted)
        (match mapLookup sts res.id with
         | some st =>
           if st = .failure ∨ st = .cancelled then mapInsert fails res.id st
           else fails
         | none => fails)
        recvd' comp' fails' h
      have hprov : convertedFor res.id converted := ⟨res, rfl, hconv⟩
      refine ⟨?_, ?_, ?_⟩
      · intro id r hr
        rcases hih.1 id r hr with hr1 | hr1
        · rw [mapLookup_insert] at hr1
          by_cases hide : id = res.id
          · rw [if_pos hide] at hr1
            cases hr1
            exact Or.inr (hide ▸ hprov)
          · rw [if_neg hide] at hr1
            exact Or.inl hr1
        · exact Or.inr hr1
      · intro id hs
        apply hih.2.1
        rw [mapLookup_insert]
        by_cases hide : id = res.id
        · rw [if_pos hide]; rfl
        · rw [if_neg hide]; exact hs
      · intro e he
        rcases List.mem_cons.mp he with he | he
        · subst he
          have hsome : (mapLookup (mapInsert comp e.id converted) e.id).isSome = true := by
            rw [mapLookup_insert, if_pos rfl]; rfl
          have := hih.2.1 e.id hsome
          cases hlk : mapLookup comp' e.id with
          | none => rw [hlk] at this; cases this
          | some r =>
            refine ⟨r, rfl, ?_⟩
            rcases hih.1 e.id r hlk with hr1 | hr1
            · rw [mapLookup_insert, if_pos rfl] at hr1
              cases hr1
              exact hprov
            · exact hr1
        · exact hih.2.2 e he

/-- Emitting `f id` for every id of a list on which `f` is total keeps the
length and the positions. -/
lemma filterMap_lookup_pointwise (f : String → Option γ) :
    ∀ (ids : List String),
      (∀ id ∈ ids, (f id).isSome = true) →
      (ids.filterMap f).length = ids.length ∧
      (∀ (i : Nat) (id : String), ids[i]? = some id →
        (ids.filterMap f)[i]? = f id) := by
  intro ids
  induction ids with
  | nil =>
    intro _
    refine ⟨rfl, ?_⟩
    intro i id hi
    simp at hi
  | cons a rest ih =>
    intro hall
    have ha : (f a).isSome = true := hall a (by simp)
    obtain ⟨v, hv⟩ := Option.isSome_iff_exists.mp ha
    have hstep : (a :: rest).filterMap f = v :: rest.filterMap f := by
      simp [List.filterMap_cons, hv]
    have hrest := ih (fun id hid => hall id (by simp [hid]))
    rw [hstep]
    refine ⟨by simp [hrest.1], ?_⟩
    intro i id hi
    cases i with
    | zero =>
      simp only [List.getElem?_cons_zero, Option.some.injEq] at hi
      subst hi
      simp [hv]
    | succ n =>
      simp only [List.getElem?_cons_succ] at hi
      simpa using hrest.2 n id hi

/-- Dropping the completed ids from pending loses an id only to the
completed set. -/
lemma removeCompleted_mem (pending completed : List String) (id : String)
    (h : id ∈ pending) :
    id ∈ removeCompleted pending completed ∨ id ∈ completed := by
  unfold removeCompleted
  by_cases hemp : completed.isEmpty
  · rw [if_pos hemp]; exact Or.inl h
  · rw [if_neg hemp]
    by_cases hin : id ∈ completed
    · exact Or.inr hin
    · refine Or.inl (List.mem_filter.mpr ⟨h, ?_⟩)
      simp only [Bool.not_eq_true']
      exact (Bool.not_eq_true _).mp (fun hc => hin (contains_iff_mem_str.mp hc))

/-- The per-id invariant of the polling loop: every canonical id is either
still pending or already completed with a converted batch entry of its id. -/
def batchInv (jobIDs : List String)
    (completed : List (String × AgentJobResult)) (pending : List String) : Prop :=
  ∀ id ∈ jobIDs, id ∈ pending ∨
    ∃ r, mapLookup completed id = some r ∧ convertedFor id r

lemma waitFinish_snd (b : JobBatchState) (failures : List (String × JobStatus)) :
    (waitFinish b failures).2 = b := by
  unfold waitFinish
  dsimp only
  split <;> rfl

/-- The final assembly emits, at each canonical index, the completed result
of the id at that index. -/
lemma waitFinish_spec (b : JobBatchState) (failures : List (String × JobStatus))
    (results : List AgentJobResult)
    (hinv : ∀ id ∈ b.jobIDs, ∃ r, mapLookup b.completed id = some r ∧ convertedFor id r)
    (h : waitResults (waitFinish b failures).1 = some results) :
    (waitFinish b failures).2.jobIDs = b.jobIDs ∧
    results.length = b.jobIDs.length ∧
    (∀ (i : Nat) (id : String), b.jobIDs[i]? = some id →
      ∃ r, results[i]? = some r ∧
        mapLookup (waitFinish b failures).2.completed id = some r ∧
        convertedFor id r) := by
  have hall : ∀ id ∈ b.jobIDs, (mapLookup b.completed id).isSome = true := by
    intro id hid
    obtain ⟨r, hr, _⟩ := hinv id hid
    rw [hr]; rfl
  have hfm := filterMap_lookup_pointwise (fun id => mapLookup b.completed id)
    b.jobIDs hall
  have hres : results = b.jobIDs.filterMap (fun id => mapLookup b.completed id) := by
    unfold waitFinish at h
    dsimp only at h
    by_cases hfail : failures.isEmpty
    · rw [if_pos hfail] at h
      simp only [waitResults, Option.some.injEq] at h
      exact h.symm
    · rw [if_neg hfail] at h
      simp only [waitResults, Option.some.injEq] at h
      exact h.symm
  rw [waitFinish_snd]
  refine ⟨rfl, by rw [hres]; exact hfm.1, ?_⟩
  intro i id hi
  obtain ⟨r, hr, hprov⟩ := hinv id (mem_of_getElem?_some hi)
  refine ⟨r, ?_, hr, hprov⟩
  rw [hres, hfm.2 i id hi]
  exact hr

/-- The polling loop, whenever it returns a results slice (with or without
the aggregate failure error), keeps the canonical id list, returns one result
per canonical id, and the i-th result is the completed, converted result of
the i-th canonical id. -/
lemma batchWaitLoop_spec (statusO : Nat → Nat → Option (List AgentJobStatusBatch))
    (resultO : Nat → Nat → Option (List AgentJobResultBatch))
    (cancelled : Nat → Bool) :
    ∀ (fuel round : Nat) (b : JobBatchState) (pending : List String)
      (failures : List (String × JobStatus)) (results : List AgentJobResult),
      batchInv b.jobIDs b.completed pending →
      waitResults
        (batchWaitLoop statusO resultO cancelled fuel round b pending failures).1 =
        some results →
      (batchWaitLoop statusO resultO cancelled fuel round b pending failures).2.jobIDs =
        b.jobIDs ∧
      results.length = b.jobIDs.length ∧
      (∀ (i : Nat) (id : String), b.jobIDs[i]? = some id →
        ∃ r, results[i]? = some r ∧
          mapLookup
            (batchWaitLoop statusO resultO cancelled fuel round b pending
              failures).2.completed id = some r ∧
          convertedFor id r) := by
  intro fuel
  induction fuel with
  | zero =>
    intro round b pending failures results hinv h
    simp [batchWaitLoop, waitResults] at h
  | succ f ih =>
    intro round b pending failures results hinv h
    simp only [batchWaitLoop] at h ⊢
    by_cases hpe : pending.isEmpty
    · rw [if_pos hpe] at h ⊢
      have hpnil : pending = [] := List.isEmpty_iff.mp hpe
      subst hpnil
      have hinv' : ∀ id ∈ b.jobIDs,
          ∃ r, mapLookup b.completed id = some r ∧ convertedFor id r := by
        intro id hid
        rcases hinv id hid with hmem | hr
        · cases hmem
        · exact hr
      exact waitFinish_spec b failures results hinv' h
    · rw [if_neg hpe] at h ⊢
      by_cases hc : cancelled round
      · rw [if_pos hc] at h
        simp [waitResults] at h
      · rw [if_neg hc] at h ⊢
        cases hsb : retrieveStatusMany (statusO round) pending with
        | error e =>
          rw [hsb] at h
          simp [waitResults] at h
        | ok statusBatch =>
          rw [hsb] at h
          dsimp only at h ⊢
          generalize hSR : statusBatch.foldl
            (fun (acc : List (String × JobStatus) × List String) st =>
              match st.status with
              | some s =>
                (mapInsert acc.1 st.id s,
                 if s.isTerminal then acc.2 ++ [st.id] else acc.2)
              | none => acc)
            (b.statuses, []) = SR at h ⊢
          by_cases hre : SR.2.isEmpty
          · rw [if_pos hre] at h ⊢
            exact ih (round + 1) { b with statuses := SR.1 } pending failures
              results hinv h
          · rw [if_neg hre] at h ⊢
            cases hrb : retrieveResultMany (resultO round) SR.2 with
            | error e =>
              rw [hrb] at h
              simp [waitResults] at h
            | ok resultsBatch =>
              rw [hrb] at h
              dsimp only at h ⊢
              cases hpr : processBatchResults SR.1 resultsBatch [] b.completed
                  failures with
              | error e =>
                rw [hpr] at h
                simp [waitResults] at h
              | ok triple =>
                obtain ⟨received, comp, fails⟩ := triple
                rw [hpr] at h
                dsimp only at h ⊢
                cases hfind : SR.2.find? (fun id => (mapLookup received id).isNone) with
                | some badid =>
                  rw [hfind] at h
                  simp [waitResults] at h
                | none =>
                  rw [hfind] at h
                  dsimp only at h ⊢
                  have hL2 := processBatchResults_spec SR.1 resultsBatch []
                    b.completed failures received comp fails hpr
                  have hpt := retrieveManyGo_ok_pointwise
                    AgentJobResultBatch.zeroFor (fun e => e.id) (fun id => rfl)
                    (resultO round) SR.2 resultsBatch hrb
                  have hready : ∀ id ∈ SR.2,
                      ∃ r, mapLookup comp id = some r ∧ convertedFor id r := by
                    intro id hid
                    obtain ⟨i, hi⟩ := List.mem_iff_getElem?.mp hid
                    obtain ⟨e, he, heid⟩ := hpt.2.2 i id hi
                    obtain ⟨r, hr, hprov⟩ := hL2.2.2 e (mem_of_getElem?_some he)
                    exact ⟨r, heid ▸ hr, heid ▸ hprov⟩
                  have hinv2 : ∀ id ∈ b.jobIDs,
                      id ∈ removeCompleted pending SR.2 ∨
                      ∃ r, mapLookup comp id = some r ∧ convertedFor id r := by
                    intro id hid
                    rcases hinv id hid with hmem | ⟨r, hr, hprov⟩
                    · rcases removeCompleted_mem pending SR.2 id hmem with h1 | h1
                      · exact Or.inl h1
                      · exact Or.inr (hready id h1)
                    · right
                      have hs := hL2.2.1 id (by rw [hr]; rfl)
                      cases hlk : mapLookup comp id with
                      | none => rw [hlk] at hs; cases hs
                      | some r' =>
                        refine ⟨r', rfl, ?_⟩
                        rcases hL2.1 id r' hlk with h2 | h2
                        · rw [hr] at h2
                          cases h2
                          exact hprov
                        · exact h2
                  by_cases hpe' : (removeCompleted pending SR.2).isEmpty
                  · rw [if_pos hpe'] at h ⊢
                    have hnil := List.isEmpty_iff.mp hpe'
                    have hinv' : ∀ id ∈ b.jobIDs,
                        ∃ r, mapLookup comp id = some r ∧ convertedFor id r := by
                      intro id hid
                      rcases hinv2 id hid with hmem | hr
                      · rw [hnil] at hmem
                        cases hmem
                      · exact hr
                    exact waitFinish_spec
                      { b with statuses := SR.1, completed := comp } fails
                      results hinv' h
                  · rw [if_neg hpe'] at h ⊢
                    exact ih (round + 1)
                      { b with statuses := SR.1, completed := comp }
                      (removeCompleted pending SR.2) fails results hinv2 h

/-- C1: whenever `JobBatch.WaitContext` completes without cancellation or
fetch error (including the partial-results case where the aggregate
failed-jobs error accompanies the slice), the returned slice has exactly one
result per job id of the canonical list fixed at batch creation, and the i-th
returned result is the completed result recorded for the i-th submitted job
id — the converted batch entry carrying that very id — regardless of the
order in which jobs reached a terminal status or the order of the batch
status/result responses. -/
theorem batchWait_ordered (statusO : Nat → Nat → Option (List AgentJobStatusBatch))
    (resultO : Nat → Nat → Option (List AgentJobResultBatch))
    (cancelled : Nat → Bool) (fuel : Nat) (b : JobBatchState)
    (results : List AgentJobResult)
    (h : waitResults (batchWaitContext statusO resultO cancelled fuel b).1 =
      some results) :
    (batchWaitContext statusO resultO cancelled fuel b).2.jobIDs = b.jobIDs ∧
    results.length = b.jobIDs.length ∧
    (∀ (i : Nat) (id : String), b.jobIDs[i]? = some id →
      ∃ r, results[i]? = some r ∧
        mapLookup (batchWaitContext statusO resultO cancelled fuel b).2.completed
          id = some r ∧
        convertedFor id r) :=
  batchWaitLoop_spec statusO resultO cancelled fuel 0 b b.jobIDs [] results
    (fun _ hid => Or.inl hid) h

/-- Three jobs in canonical order. -/
def wJobIDs : List String := ["job-1", "job-2", "job-3"]

/-- An output datum value carried inside a batch result entry. -/
def wDatum (v : String) : Jv := .obj [("key", .str "out"), ("value", .str v)]

/-- A successful batch result entry for a job with one distinct output. -/
def wEntry (id v : String) : AgentJobResultBatch :=
  { id := id, status := some .success, result := .arr [wDatum v],
    corrected := [], agentID := some "ag", agentVersionID := some "av",
    cost := none, inputs := [], inputTokens := none, outputTokens := none }

/-- The converted result the entry above yields. -/
def wResult (v : String) : AgentJobResult :=
  { agentID := "ag", agentVersionID := "av", inputs := [],
    inputTokens := none, outputTokens := none,
    outputs := [{ key := "out", description := "", dataType := "", value := v,
                  cost := none }] }

/-- A terminal status entry. -/
def wStatus (id : String) : AgentJobStatusBatch :=
  { id := id, status := some .success, createdAt := .null,
    lastUpdatedAt := .null }

/-- Status responses listing the jobs out of order. -/
def wStatusO : Nat → Nat → Option (List AgentJobStatusBatch) :=
  fun _ _ => some [wStatus "job-2", wStatus "job-1", wStatus "job-3"]

/-- Result responses listing the jobs in the order [job-2, job-1, job-3]
with distinct output values, each matching its own id's suffix. -/
def wResultO : Nat → Nat → Option (List AgentJobResultBatch) :=
  fun _ _ => some [wEntry "job-2" "v2", wEntry "job-1" "v1", wEntry "job-3" "v3"]

/-- A fresh batch over the three jobs. -/
def wBatch : JobBatchState := { jobIDs := wJobIDs, statuses := [], completed := [] }

/-- C1 witness: the ordering theorem applied to the spec's concrete scenario:
three jobs submitted as [job-1, job-2, job-3] whose batch responses arrive in
the order [job-2, job-1, job-3] with distinct outputs; the wait returns the
results in the submitted order with each result's output matching its own
job. -/
theorem batchWait_ordered_witness :
    (batchWaitContext wStatusO wResultO (fun _ => false) 2 wBatch).1 =
      .ok [wResult "v1", wResult "v2", wResult "v3"] ∧
    [wResult "v1", wResult "v2", wResult "v3"].length = wBatch.jobIDs.length ∧
    (∀ (i : Nat) (id : String), wBatch.jobIDs[i]? = some id →
      ∃ r, [wResult "v1", wResult "v2", wResult "v3"][i]? = some r ∧
        mapLookup (batchWaitContext wStatusO wResultO (fun _ => false) 2
          wBatch).2.completed id = some r ∧
        convertedFor id r) := by
  have h := batchWait_ordered wStatusO wResultO (fun _ => false) 2 wBatch
    [wResult "v1", wResult "v2", wResult "v3"] rfl
  exact ⟨rfl, h.2.1, h.2.2⟩

end Roe
